import Mathlib

/-!
Verification development for the AWX RBAC closure-maintenance engine
(`awx/main/models/rbac.py`).

The relational state is embedded shallowly: the three tables `roles`,
`parents` (the role-role many-to-many through table) and `ancestors`
(`main_rbac_role_ancestors`) are lists of rows, and every SQL statement the
engine issues is translated into an executable list transformation.  The
thread-local batching state of `batch_role_ancestor_rebuilding` is an explicit
record threaded through the operations, and Python exceptions are modelled
with `Except` / explicit error components.
-/

namespace AwxRbac

/-- A row of the `main_rbac_roles` table (the columns the engine reads).
`content_type_id` and `object_id` are nullable in the schema, hence `Option`. -/
structure RoleRow where
  id : Nat
  role_field : String
  content_type_id : Option Nat
  object_id : Option Nat
  singleton_name : Option String := none
deriving DecidableEq, Repr

/-- A row of `main_rbac_role_ancestors`.  The surrogate `id` column is omitted:
every statement of the engine identifies rows through the
`(descendent_id, ancestor_id)` pair (the `id NOT IN (...)` subqueries select
row ids by joining on exactly that pair). -/
structure AncestorRow where
  descendent_id : Nat
  ancestor_id : Nat
  role_field : String
  content_type_id : Nat
  object_id : Nat
deriving DecidableEq, Repr

/-- The relational store: `roles`, the `parents` edge table as
`(from_role_id, to_role_id)` pairs ("from inherits from to"), the materialized
`ancestors` closure, and the role-membership many-to-many table as
`(role_id, user_id)` pairs. -/
structure DBState where
  roles : List RoleRow
  parents : List (Nat × Nat)
  ancestors : List AncestorRow
  members : List (Nat × Nat)
deriving DecidableEq, Repr

/-- SQL `COALESCE(x, 0)`. -/
def coalesce0 : Option Nat → Nat
  | some n => n
  | none => 0

/-- The self-reference entry `from_role_id = role_id = to_role_id` produced by
the second branch of the `UNION` in both rebuild statements. -/
def selfRow (r : RoleRow) : AncestorRow :=
  ⟨r.id, r.id, r.role_field, coalesce0 r.content_type_id, coalesce0 r.object_id⟩

/-- First branch of the `new_ancestry_list` union: for every `parents` edge
whose `from_role_id` is in the working set, join the `roles` row of the child
(for the denormalized columns) with every `ancestors` row of the parent. -/
def parentSelector (db : DBState) (ids : List Nat) : List AncestorRow :=
  (db.parents.filter (fun e => ids.contains e.1)).flatMap (fun e =>
    (db.roles.filter (fun r => r.id == e.1)).flatMap (fun r =>
      (db.ancestors.filter (fun a => a.descendent_id == e.2)).map (fun a =>
        ⟨e.1, a.ancestor_id, r.role_field, coalesce0 r.content_type_id,
          coalesce0 r.object_id⟩)))

/-- Second branch of the union: the self rows for the roles of the working set
(`SELECT id from_id, id to_id ... FROM roles WHERE id IN (ids)`). -/
def selfSelector (db : DBState) (ids : List Nat) : List AncestorRow :=
  (db.roles.filter (fun r => ids.contains r.id)).map selfRow

/-- The `new_ancestry_list` inner query of both layer statements; `UNION`
eliminates duplicate result rows, modelled by `dedup`. -/
def newAncestryList (db : DBState) (ids : List Nat) : List AncestorRow :=
  (parentSelector db ids ++ selfSelector db ids).dedup

/-- `(descendent_id, ancestor_id)` pair equality, the join condition used by the
`id NOT IN` / `id IS NULL` subqueries. -/
def pairEq (c a : AncestorRow) : Bool :=
  c.descendent_id == a.descendent_id && c.ancestor_id == a.ancestor_id

/-- The layer `DELETE`: remove every row whose `descendent_id` is in the
working set and whose pair does not occur in `new_ancestry_list`.  Returns the
new state together with `cursor.rowcount`. -/
def layerDelete (db : DBState) (ids : List Nat) : DBState × Nat :=
  let cands := newAncestryList db ids
  let keep := db.ancestors.filter (fun a =>
    !(ids.contains a.descendent_id) || cands.any (fun c => pairEq c a))
  ({ db with ancestors := keep }, db.ancestors.length - keep.length)

/-- The layer `INSERT`: add every `new_ancestry_list` row whose pair is not yet
present (the `LEFT JOIN ... WHERE id IS NULL` condition), recomputing the inner
query against the post-`DELETE` table.  Returns the new state together with
`cursor.rowcount`. -/
def layerInsert (db : DBState) (ids : List Nat) : DBState × Nat :=
  let cands := newAncestryList db ids
  let missing := cands.filter (fun c =>
    !(db.ancestors.any (fun a => pairEq c a)))
  ({ db with ancestors := db.ancestors ++ missing }, missing.length)

/-- The descent query
`Role.objects.distinct().filter(id__in=ids, children__id__isnull=False)
.values_list('children__id', flat=True)`: the distinct `from_role_id` values of
`parents` rows whose `to_role_id` is a role of the working set. -/
def childrenOf (db : DBState) (ids : List Nat) : List Nat :=
  ((db.roles.filter (fun r => ids.contains r.id)).flatMap (fun r =>
    (db.parents.filter (fun e => e.2 == r.id)).map (fun e => e.1))).dedup

/-- Observable store statements issued by the rebuild, with the affected-row
counts reported by the cursor for the two layer statements and the result rows
of the descent query. -/
inductive SqlOp where
  | purgeStmt (ids : List Nat)
  | layerDeleteStmt (ids : List Nat) (rowcount : Nat)
  | layerInsertStmt (ids : List Nat) (rowcount : Nat)
  | childrenStmt (ids result : List Nat)
deriving DecidableEq, Repr

/-- The message of the safety-bound exception in
`Role._simultaneous_ancestry_rebuild`. -/
def infiniteLoopMsg : String :=
  "Ancestry role rebuilding error: infinite loop detected"

/-- The `while role_ids_to_rebuild:` loop of
`Role._simultaneous_ancestry_rebuild`, recursing structurally on the remaining
fuel `1001 - loop_ct`: with a non-empty working set the source raises exactly
when `loop_ct > 1000`, i.e. when the remaining fuel is zero; otherwise it runs
the layer `DELETE` and `INSERT`, breaks when both did no work, and descends to
the children of the working set with `loop_ct` incremented (fuel decremented). -/
def rebuildLoopFuel : Nat → DBState → List Nat → Except String (DBState × List SqlOp)
  | 0, db, ids => if ids.isEmpty then .ok (db, []) else .error infiniteLoopMsg
  | fuel' + 1, db, ids =>
    if ids.isEmpty then .ok (db, [])
    else
      let d := layerDelete db ids
      let i := layerInsert d.1 ids
      if i.2 = 0 ∧ d.2 = 0 then
        .ok (i.1, [.layerDeleteStmt ids d.2, .layerInsertStmt ids i.2])
      else
        let next := childrenOf i.1 ids
        match rebuildLoopFuel fuel' i.1 next with
        | .ok (db2, ops) =>
            .ok (db2, .layerDeleteStmt ids d.2 :: .layerInsertStmt ids i.2 ::
              .childrenStmt ids next :: ops)
        | .error e => .error e

/-- The loop as entered with counter value `loop_ct` (`loop_ct = 0` at the call
site in `Role._simultaneous_ancestry_rebuild`). -/
def rebuildLoop (db : DBState) (ids : List Nat) (loop_ct : Nat) :
    Except String (DBState × List SqlOp) :=
  rebuildLoopFuel (1001 - loop_ct) db ids

/-- The unconditioned seed purge
`DELETE FROM ancestors WHERE ancestor_id IN (ids)` (the live statement; the
restricted variant in the source is commented out). -/
def purgeByAncestor (db : DBState) (ids : List Nat) : DBState :=
  { db with ancestors := db.ancestors.filter (fun a => !(ids.contains a.ancestor_id)) }

/-- `Role._simultaneous_ancestry_rebuild`: return immediately on an empty seed,
otherwise purge by the ancestor column once and run the layer loop.  The result
carries the list of issued statements; a raised exception is the `.error`
case. -/
def simultaneous_ancestry_rebuild (db : DBState) (role_ids_to_rebuild : List Nat) :
    Except String (DBState × List SqlOp) :=
  if role_ids_to_rebuild.length = 0 then .ok (db, [])
  else
    match rebuildLoop (purgeByAncestor db role_ids_to_rebuild) role_ids_to_rebuild 0 with
    | .ok (db1, ops) => .ok (db1, .purgeStmt role_ids_to_rebuild :: ops)
    | .error e => .error e

/-- The thread-local storage `tls` used by the batching machinery:
`batch_role_rebuilding` defaults to `False` (`getattr(tls, ..., False)`), and
`roles_needing_rebuilding` is `none` while the attribute is absent. -/
structure TLSState where
  batch_role_rebuilding : Bool
  roles_needing_rebuilding : Option (List Nat)
deriving DecidableEq, Repr

/-- `Role.rebuild_role_ancestor_list` for a role with id `role_id`: while the
batching flag is set, add the id to the accumulated set and return; otherwise
run `Role._simultaneous_ancestry_rebuild([self.id])`.  Reading an absent
accumulated set is the `AttributeError` case. -/
def rebuild_role_ancestor_list (role_id : Nat) (tls : TLSState) (db : DBState) :
    Except String (TLSState × DBState × List SqlOp) :=
  if tls.batch_role_rebuilding then
    match tls.roles_needing_rebuilding with
    | none => .error "AttributeError: roles_needing_rebuilding"
    | some s =>
        .ok ({ tls with roles_needing_rebuilding := some (s.insert role_id) }, db, [])
  else
    match simultaneous_ancestry_rebuild db [role_id] with
    | .ok (db1, ops) => .ok (tls, db1, ops)
    | .error e => .error e

/-- The `batch_role_ancestor_rebuilding(allow_nesting=False)` context manager,
run around a `body`.  The body receives the entry-time state and returns the
state at its end together with `some msg` when it raised.  The `finally` block
restores the saved flag and, when the saved flag was clear, rebuilds the
accumulated set inside one transaction (modelled all-or-nothing: a raising
rebuild rolls back, leaving the store as the body left it) and deletes the
accumulator.  `allow_nesting` is accepted but never read by the source. -/
def batch_role_ancestor_rebuilding (allow_nesting : Bool) (tls : TLSState)
    (db : DBState) (body : TLSState → DBState → TLSState × DBState × Option String) :
    TLSState × DBState × Option String :=
  let saved := tls.batch_role_rebuilding
  let tls1 : TLSState :=
    { batch_role_rebuilding := true
      roles_needing_rebuilding :=
        if saved then tls.roles_needing_rebuilding else some [] }
  let r := body tls1 db
  let tls2 := { r.1 with batch_role_rebuilding := saved }
  if saved then (tls2, r.2.1, r.2.2)
  else
    match tls2.roles_needing_rebuilding with
    | none => (tls2, r.2.1, some "AttributeError: roles_needing_rebuilding")
    | some rebuild_set =>
      match simultaneous_ancestry_rebuild r.2.1 rebuild_set with
      | .ok (db1, _) => ({ tls2 with roles_needing_rebuilding := none }, db1, r.2.2)
      | .error e => (tls2, r.2.1, some e)

/-- An accessor for `get_roles_on_resource`: a `User`, a `Role` instance, or an
arbitrary resource identified by its content type and object id. -/
inductive Accessor where
  | user (user_id : Nat)
  | role (r : RoleRow)
  | obj (content_type_id : Nat) (object_id : Nat)
deriving DecidableEq, Repr

/-- A resource, as consumed by `get_roles_on_resource`:
`ContentType.objects.get_for_model(resource).id` and `resource.id`. -/
structure Resource where
  content_type_id : Nat
  id : Nat
deriving DecidableEq, Repr

/-- The accessor dispatch of `get_roles_on_resource`: a user's membership roles
(`accessor.roles.all()`), a role itself, or the roles bound to an arbitrary
object by content type and object id. -/
def accessorRoleIds (db : DBState) (accessor : Accessor) : List Nat :=
  match accessor with
  | .user u => (db.roles.filter (fun r => db.members.contains (r.id, u))).map (fun r => r.id)
  | .role r => [r.id]
  | .obj ct oid =>
      (db.roles.filter (fun r => r.content_type_id == some ct && r.object_id == some oid)).map
        (fun r => r.id)

/-- `get_roles_on_resource(resource, accessor)`: the distinct `role_field`
values of ancestor rows whose ancestor is one of the accessor's roles and whose
denormalized `(content_type_id, object_id)` equals the resource's (a Python
dict keyed by `role_field`, modelled as its deduplicated key list). -/
def get_roles_on_resource (db : DBState) (resource : Resource) (accessor : Accessor) :
    List String :=
  ((db.ancestors.filter (fun a =>
      (accessorRoleIds db accessor).contains a.ancestor_id &&
      a.content_type_id == resource.content_type_id &&
      a.object_id == resource.id)).map (fun a => a.role_field)).dedup

/-- One parent-edge hop: `(x, y) ∈ parents`, i.e. `y` is a direct parent of
`x`. -/
def parentHop (db : DBState) (x y : Nat) : Prop := (x, y) ∈ db.parents

/-- `a` is reachable from `d` by zero-or-more parent-edge hops. -/
def reachable (db : DBState) (d a : Nat) : Prop :=
  Relation.ReflTransGen (parentHop db) d a

/-- Executable bounded reachability over an edge list, used to certify
reachability facts on concrete states. -/
def reachesWithin (edges : List (Nat × Nat)) : Nat → Nat → Nat → Bool
  | 0, d, a => d == a
  | n + 1, d, a =>
      d == a || (edges.filter (fun e => e.1 == d)).any (fun e => reachesWithin edges n e.2 a)

end AwxRbac

namespace AwxRbac

/-! ### Batching-context and entry-point claims -/

/-- C5: while the batching flag is set for the current task, a call to the
rebuild entry point `rebuild_role_ancestor_list` only adds the role's id to the
accumulated set and returns: it issues no store statement, so it performs no
delete or insert on the ancestors table, and the whole store — in particular
the `ancestors` table — is returned unchanged. -/
theorem batched_entry_only_accumulates (role_id : Nat) (ids : List Nat)
    (tls : TLSState) (db : DBState)
    (hflag : tls.batch_role_rebuilding = true)
    (hset : tls.roles_needing_rebuilding = some ids) :
    rebuild_role_ancestor_list role_id tls db =
      .ok ({ tls with roles_needing_rebuilding := some (ids.insert role_id) }, db, []) := by
  simp [rebuild_role_ancestor_list, hflag, hset]

theorem batched_entry_only_accumulates_witness :
    rebuild_role_ancestor_list 5 ⟨true, some [9]⟩ ⟨[], [], [], []⟩ =
      .ok (⟨true, some ([9].insert 5)⟩, ⟨[], [], [], []⟩, []) :=
  batched_entry_only_accumulates 5 [9] ⟨true, some [9]⟩ ⟨[], [], [], []⟩ rfl rfl

/-- C10: an empty-seed rebuild is a complete no-op — it issues no store
statement at all (not even the seed purge) and leaves the whole store
unchanged — and consequently exiting an outermost batching context in which no
role id was accumulated does not modify the closure (and raises nothing). -/
theorem empty_seed_rebuild_noop :
    (∀ db : DBState, simultaneous_ancestry_rebuild db [] = .ok (db, [])) ∧
    (∀ (allow_nesting : Bool) (tls : TLSState) (db : DBState),
      tls.batch_role_rebuilding = false →
      batch_role_ancestor_rebuilding allow_nesting tls db (fun t d => (t, d, none)) =
        (⟨false, none⟩, db, none)) := by
  constructor
  · intro db
    simp [simultaneous_ancestry_rebuild]
  · intro an tls db hflag
    simp [batch_role_ancestor_rebuilding, hflag, simultaneous_ancestry_rebuild]

theorem empty_seed_rebuild_noop_witness :
    simultaneous_ancestry_rebuild ⟨[], [], [], []⟩ [] = .ok (⟨[], [], [], []⟩, []) ∧
    batch_role_ancestor_rebuilding true ⟨false, none⟩ ⟨[], [], [], []⟩
        (fun t d => (t, d, none)) = (⟨false, none⟩, ⟨[], [], [], []⟩, none) :=
  ⟨empty_seed_rebuild_noop.1 ⟨[], [], [], []⟩,
   empty_seed_rebuild_noop.2 true ⟨false, none⟩ ⟨[], [], [], []⟩ rfl⟩

/-- C3 (counterexample): entering a batching context inside another with
`allow_nesting = false` is *not* reported as an error: on a concrete nested
run the inner context returns with no error component, leaves the accumulated
set untouched and does not rebuild, and the whole nested execution finishes
without any error. -/
theorem nested_entry_no_error :
    batch_role_ancestor_rebuilding false ⟨true, some [4]⟩ ⟨[], [], [], []⟩
        (fun t d => (t, d, none)) = (⟨true, some [4]⟩, ⟨[], [], [], []⟩, none) ∧
    batch_role_ancestor_rebuilding false ⟨false, none⟩ ⟨[], [], [], []⟩
        (fun t d => batch_role_ancestor_rebuilding false t d (fun t1 d1 => (t1, d1, none))) =
      (⟨false, none⟩, ⟨[], [], [], []⟩, none) := by
  constructor
  · rfl
  · rfl

/-- C3 (amended): entering a batching context while another batching context is
already active on the same task is never an error, for either value of
`allow_nesting` (the source accepts the parameter but never reads it): the
inner context is a no-op — the body's resulting store is passed through
unchanged (no rebuild is invoked), the accumulated set is not cleared, and the
body's error component is propagated as is. -/
theorem nested_entry_is_noop (allow_nesting : Bool) (tls : TLSState) (db : DBState)
    (body : TLSState → DBState → TLSState × DBState × Option String)
    (hflag : tls.batch_role_rebuilding = true) :
    batch_role_ancestor_rebuilding allow_nesting tls db body =
      ({ (body tls db).1 with batch_role_rebuilding := true },
        (body tls db).2.1, (body tls db).2.2) := by
  obtain ⟨f, s⟩ := tls
  subst hflag
  simp [batch_role_ancestor_rebuilding]

theorem nested_entry_is_noop_witness :
    batch_role_ancestor_rebuilding false ⟨true, some [3]⟩ ⟨[], [], [], []⟩
        (fun t d => (t, d, some "boom")) = (⟨true, some [3]⟩, ⟨[], [], [], []⟩, some "boom") :=
  nested_entry_is_noop false ⟨true, some [3]⟩ ⟨[], [], [], []⟩
    (fun t d => (t, d, some "boom")) rfl

/-- C6: leaving the outermost batching context — whether the body completed
normally (`e2 = none`) or raised (`e2 = some msg`) — restores the cleared flag
and invokes the rebuild on exactly the accumulated role ids in one pass; the
rebuild runs inside one transaction, modelled all-or-nothing: if it commits its
result becomes the store and the accumulator is deleted, and if it raises the
store is left exactly as the body left it. -/
theorem outermost_exit_rebuilds (allow_nesting : Bool) (tls : TLSState) (db : DBState)
    (body : TLSState → DBState → TLSState × DBState × Option String)
    (t2 : TLSState) (d2 : DBState) (e2 : Option String) (ids : List Nat)
    (hflag : tls.batch_role_rebuilding = false)
    (hbody : body ⟨true, some []⟩ db = (t2, d2, e2))
    (hacc : t2.roles_needing_rebuilding = some ids) :
    (∀ d3 ops, simultaneous_ancestry_rebuild d2 ids = .ok (d3, ops) →
      batch_role_ancestor_rebuilding allow_nesting tls db body = (⟨false, none⟩, d3, e2)) ∧
    (∀ msg, simultaneous_ancestry_rebuild d2 ids = .error msg →
      batch_role_ancestor_rebuilding allow_nesting tls db body =
        (⟨false, some ids⟩, d2, some msg)) := by
  constructor
  · intro d3 ops hreb
    simp [batch_role_ancestor_rebuilding, hflag, hbody, hacc, hreb]
  · intro msg hreb
    simp [batch_role_ancestor_rebuilding, hflag, hbody, hacc, hreb]

theorem outermost_exit_rebuilds_witness :
    batch_role_ancestor_rebuilding false ⟨false, none⟩ ⟨[], [], [], []⟩
        (fun t d => (t, d, some "body raised")) =
      (⟨false, none⟩, ⟨[], [], [], []⟩, some "body raised") :=
  (outermost_exit_rebuilds false ⟨false, none⟩ ⟨[], [], [], []⟩
      (fun t d => (t, d, some "body raised")) ⟨true, some []⟩ ⟨[], [], [], []⟩
      (some "body raised") [] rfl rfl rfl).1 ⟨[], [], [], []⟩ [] rfl

end AwxRbac

namespace AwxRbac

/-- The layer loop never issues a seed purge: every statement it records is a
layer `DELETE`, a layer `INSERT`, or the descent query. -/
theorem rebuildLoopFuel_no_purge (fuel : Nat) :
    ∀ db ids db' ops, rebuildLoopFuel fuel db ids = .ok (db', ops) →
      ∀ l, SqlOp.purgeStmt l ∉ ops := by
  induction fuel with
  | zero =>
      intro db ids db' ops hok l
      rw [rebuildLoopFuel] at hok
      by_cases hempty : ids.isEmpty
      · rw [if_pos hempty] at hok
        cases hok
        simp
      · rw [if_neg hempty] at hok
        cases hok
  | succ f ih =>
      intro db ids db' ops hok l
      rw [rebuildLoopFuel] at hok
      by_cases hempty : ids.isEmpty
      · rw [if_pos hempty] at hok
        cases hok
        simp
      · rw [if_neg hempty] at hok
        by_cases hstop :
            (layerInsert (layerDelete db ids).1 ids).2 = 0 ∧ (layerDelete db ids).2 = 0
        · rw [if_pos hstop] at hok
          cases hok
          simp
        · rw [if_neg hstop] at hok
          cases hrec : rebuildLoopFuel f (layerInsert (layerDelete db ids).1 ids).1
              (childrenOf (layerInsert (layerDelete db ids).1 ids).1 ids) with
          | ok r =>
              obtain ⟨db2, ops2⟩ := r
              simp only [hrec] at hok
              cases hok
              have hrest := ih _ _ _ _ hrec l
              simp only [List.mem_cons]
              rintro (h | h | h | h)
              · cases h
              · cases h
              · cases h
              · exact hrest h
          | error e =>
              simp only [hrec] at hok
              cases hok

/-- Wrapper of the previous lemma at a concrete counter value. -/
theorem rebuildLoop_no_purge (db : DBState) (ids : List Nat) (loop_ct : Nat)
    (db' : DBState) (ops : List SqlOp)
    (hok : rebuildLoop db ids loop_ct = .ok (db', ops)) :
    ∀ l, SqlOp.purgeStmt l ∉ ops :=
  rebuildLoopFuel_no_purge (1001 - loop_ct) db ids db' ops hok

end AwxRbac

namespace AwxRbac

/-- C8: for a non-empty seed the rebuild purges, exactly once and before the
layer loop starts, every ancestors row whose ancestor column lies in the seed
(including self rows and rows whose descendent is outside the seed): the purge
is the first issued statement, it is computed from the initial seed only, and
no later statement of a committed run is a purge. -/
theorem seed_purge_shape (db : DBState) (ids : List Nat) (hne : ids ≠ []) :
    (∀ row : AncestorRow, row ∈ (purgeByAncestor db ids).ancestors ↔
      row ∈ db.ancestors ∧ row.ancestor_id ∉ ids) ∧
    (simultaneous_ancestry_rebuild db ids =
      (rebuildLoop (purgeByAncestor db ids) ids 0).map
        (fun r => (r.1, SqlOp.purgeStmt ids :: r.2))) ∧
    (∀ db' ops, simultaneous_ancestry_rebuild db ids = .ok (db', ops) →
      ∃ rest, ops = SqlOp.purgeStmt ids :: rest ∧ ∀ l, SqlOp.purgeStmt l ∉ rest) := by
  have hlen : ¬(ids.length = 0) := fun hlen => hne (List.length_eq_zero.mp hlen)
  refine ⟨?_, ?_, ?_⟩
  · intro row
    simp [purgeByAncestor, List.mem_filter]
  · rw [simultaneous_ancestry_rebuild, if_neg hlen]
    cases h : rebuildLoop (purgeByAncestor db ids) ids 0 with
    | ok r => obtain ⟨db1, ops1⟩ := r; rfl
    | error e => rfl
  · intro db' ops hok
    rw [simultaneous_ancestry_rebuild, if_neg hlen] at hok
    cases h : rebuildLoop (purgeByAncestor db ids) ids 0 with
    | ok r =>
        obtain ⟨db1, ops1⟩ := r
        rw [h] at hok
        cases hok
        exact ⟨_, rfl, fun l => rebuildLoop_no_purge _ _ _ _ _ h l⟩
    | error e =>
        rw [h] at hok
        cases hok

theorem seed_purge_shape_witness :
    simultaneous_ancestry_rebuild ⟨[], [], [], []⟩ [7] =
      (rebuildLoop (purgeByAncestor ⟨[], [], [], []⟩ [7]) [7] 0).map
        (fun r => (r.1, SqlOp.purgeStmt [7] :: r.2)) :=
  (seed_purge_shape ⟨[], [], [], []⟩ [7] (by decide)).2.1

/-- C9: `get_roles_on_resource` returns exactly the distinct `role_field`
values of ancestors rows whose ancestor is among the roles held by the
accessor and whose denormalized content type and object id equal the
resource's; the dispatch collects a user's membership roles, a role itself, or
the roles bound to an arbitrary object by content type and object id; an
accessor holding no roles yields the empty result, and the operation is total
(it never fails). -/
theorem roles_on_resource_spec (db : DBState) (res : Resource) (acc : Accessor) :
    (∀ f : String, f ∈ get_roles_on_resource db res acc ↔
      ∃ row ∈ db.ancestors, row.ancestor_id ∈ accessorRoleIds db acc ∧
        row.content_type_id = res.content_type_id ∧ row.object_id = res.id ∧
        row.role_field = f) ∧
    (get_roles_on_resource db res acc).Nodup ∧
    (accessorRoleIds db acc = [] → get_roles_on_resource db res acc = []) ∧
    (∀ u, acc = .user u → ∀ i, (i ∈ accessorRoleIds db acc ↔
      ∃ r ∈ db.roles, r.id = i ∧ (i, u) ∈ db.members)) ∧
    (∀ r, acc = .role r → accessorRoleIds db acc = [r.id]) ∧
    (∀ ct oid, acc = .obj ct oid → ∀ i, (i ∈ accessorRoleIds db acc ↔
      ∃ r ∈ db.roles, r.id = i ∧ r.content_type_id = some ct ∧ r.object_id = some oid)) := by
  refine ⟨?_, ?_, ?_, ?_, ?_, ?_⟩
  · intro f
    simp only [get_roles_on_resource, List.mem_dedup, List.mem_map, List.mem_filter,
      Bool.and_eq_true, beq_iff_eq, List.elem_iff, decide_eq_true_eq]
    constructor
    · rintro ⟨row, ⟨hrow, ⟨hanc, hct⟩, hoid⟩, hfield⟩
      exact ⟨row, hrow, hanc, hct, hoid, hfield⟩
    · rintro ⟨row, hrow, hanc, hct, hoid, hfield⟩
      exact ⟨row, ⟨hrow, ⟨hanc, hct⟩, hoid⟩, hfield⟩
  · exact List.nodup_dedup _
  · intro hempty
    simp [get_roles_on_resource, hempty]
  · rintro u rfl i
    simp only [accessorRoleIds, List.mem_map, List.mem_filter, List.elem_iff,
      decide_eq_true_eq]
    constructor
    · rintro ⟨r, ⟨hr, hm⟩, rfl⟩
      exact ⟨r, hr, rfl, hm⟩
    · rintro ⟨r, hr, rfl, hm⟩
      exact ⟨r, ⟨hr, hm⟩, rfl⟩
  · rintro r rfl
    rfl
  · rintro ct oid rfl i
    simp only [accessorRoleIds, List.mem_map, List.mem_filter, Bool.and_eq_true, beq_iff_eq]
    constructor
    · rintro ⟨r, ⟨hr, hct, hoid⟩, rfl⟩
      exact ⟨r, hr, rfl, hct, hoid⟩
    · rintro ⟨r, hr, rfl, hct, hoid⟩
      exact ⟨r, ⟨hr, hct, hoid⟩, rfl⟩

theorem roles_on_resource_spec_witness :
    get_roles_on_resource ⟨[], [], [⟨1, 1, "admin", 2, 3⟩], []⟩ ⟨2, 3⟩ (.user 0) = [] :=
  (roles_on_resource_spec ⟨[], [], [⟨1, 1, "admin", 2, 3⟩], []⟩ ⟨2, 3⟩ (.user 0)).2.2.1 rfl

end AwxRbac

namespace AwxRbac

/-- Reachability certified by the bounded executable check is reachability. -/
theorem reachable_of_reachesWithin (db : DBState) (n d a : Nat)
    (h : reachesWithin db.parents n d a = true) : reachable db d a := by
  induction n generalizing d with
  | zero =>
      simp only [reachesWithin, beq_iff_eq] at h
      subst h
      exact Relation.ReflTransGen.refl
  | succ n ih =>
      simp only [reachesWithin, Bool.or_eq_true, beq_iff_eq, List.any_eq_true,
        List.mem_filter] at h
      rcases h with h | ⟨e, ⟨hmem, hfrom⟩, hrec⟩
      · subst h
        exact Relation.ReflTransGen.refl
      · refine Relation.ReflTransGen.head ?_ (ih e.2 hrec)
        have : e = (d, e.2) := by
          obtain ⟨e1, e2⟩ := e
          simp only [beq_iff_eq] at hfrom
          simp [hfrom]
        rw [this] at hmem
        exact hmem

/-- Everything reachable from a member of a set closed under the parent edges
stays in the set. -/
theorem reachable_mem_closed (db : DBState) (C : List Nat) (x y : Nat)
    (h : reachable db x y) (hx : x ∈ C)
    (hclosed : ∀ e ∈ db.parents, e.1 ∈ C → e.2 ∈ C) : y ∈ C := by
  induction h with
  | refl => exact hx
  | tail _ hbc ih => exact hclosed _ hbc ih

/-- The concrete store exhibiting the completeness bug: roles `1, 2` form a
cycle, both inherit from role `3`, and role `3` inherited from role `4` until
the edge `(3, 4)` was removed. -/
def bugRole (i : Nat) : RoleRow := ⟨i, "r", none, none, none⟩

/-- Closure row with the canonical denormalized columns of the bug store. -/
def bugRow (d a : Nat) : AncestorRow := ⟨d, a, "r", 0, 0⟩

/-- The exact closure of the pre-mutation graph
`{(1,2), (2,1), (1,3), (3,4)}`. -/
def bugClosure : List AncestorRow :=
  [bugRow 1 1, bugRow 1 2, bugRow 1 3, bugRow 1 4,
   bugRow 2 1, bugRow 2 2, bugRow 2 3, bugRow 2 4,
   bugRow 3 3, bugRow 3 4,
   bugRow 4 4]

/-- The pre-mutation store: its `ancestors` table is the exact closure of its
`parents` graph. -/
def bugDbOld : DBState :=
  { roles := [bugRole 1, bugRole 2, bugRole 3, bugRole 4]
    parents := [(1, 2), (2, 1), (1, 3), (3, 4)]
    ancestors := bugClosure
    members := [] }

/-- The store after the committed mutation that removes the parent edge
`(3, 4)`: only role `3`'s parent list changed, so the rebuild entry point is
invoked on role `3`. -/
def bugDbBefore : DBState := { bugDbOld with parents := [(1, 2), (2, 1), (1, 3)] }

/-- The table the rebuild leaves behind on the bug store, and the statements it
issues. -/
def bugDbAfter : DBState :=
  { bugDbBefore with ancestors :=
      [bugRow 1 1, bugRow 1 2, bugRow 1 4,
       bugRow 2 1, bugRow 2 2, bugRow 2 4,
       bugRow 4 4, bugRow 3 3, bugRow 1 3, bugRow 2 3] }

/-- The statement trace of the rebuild on the bug store. -/
def bugOps : List SqlOp :=
  [.purgeStmt [3],
   .layerDeleteStmt [3] 1, .layerInsertStmt [3] 1, .childrenStmt [3] [1],
   .layerDeleteStmt [1] 0, .layerInsertStmt [1] 1, .childrenStmt [1] [2],
   .layerDeleteStmt [2] 0, .layerInsertStmt [2] 1, .childrenStmt [2] [1],
   .layerDeleteStmt [1] 0, .layerInsertStmt [1] 0]

/-- C1 (evaluation at the failing input): the pre-mutation `ancestors` table is
sound for the pre-mutation graph (every row is a reachable pair), yet after
removing edge `(3, 4)` and running the rebuild entry point on the mutated role
`3`, the run commits — and the committed table still contains the row
`(1, 4)` although role `4` is no longer reachable from role `1`.  The
completeness invariant claimed by the specification is violated by the code. -/
theorem completeness_invariant_code_bug :
    (∀ row ∈ bugDbOld.ancestors, reachable bugDbOld row.descendent_id row.ancestor_id) ∧
    ∃ db' ops,
      rebuild_role_ancestor_list 3 ⟨false, none⟩ bugDbBefore = .ok (⟨false, none⟩, db', ops) ∧
      bugRow 1 4 ∈ db'.ancestors ∧ ¬ reachable db' 1 4 := by
  constructor
  · intro row hrow
    refine reachable_of_reachesWithin bugDbOld 4 _ _ ?_
    have hall : bugDbOld.ancestors.all
        (fun row => reachesWithin bugDbOld.parents 4 row.descendent_id row.ancestor_id) =
          true := by decide
    exact List.all_eq_true.mp hall row hrow
  · refine ⟨bugDbAfter, bugOps, by rfl, by decide, fun h => ?_⟩
    have h4 : (4 : Nat) ∈ [1, 2, 3] :=
      reachable_mem_closed _ [1, 2, 3] 1 4 h (by decide) (by decide)
    simp at h4

end AwxRbac

namespace AwxRbac

/-! ### The self invariant (claim C2) -/

/-- Predicate selecting the self rows of role id `R`. -/
def selfP (R : Nat) (a : AncestorRow) : Bool :=
  a.descendent_id == R && a.ancestor_id == R

/-- Number of rows with `descendent = ancestor = R` in the ancestors table. -/
def selfCount (db : DBState) (R : Nat) : Nat :=
  db.ancestors.countP (selfP R)

/-- The layer loop only rewrites the `ancestors` table. -/
theorem rebuildLoopFuel_frame (fuel : Nat) :
    ∀ db ids db' ops, rebuildLoopFuel fuel db ids = .ok (db', ops) →
      db'.roles = db.roles ∧ db'.parents = db.parents ∧ db'.members = db.members := by
  induction fuel with
  | zero =>
      intro db ids db' ops hok
      rw [rebuildLoopFuel] at hok
      by_cases hempty : ids.isEmpty
      · rw [if_pos hempty] at hok
        cases hok
        exact ⟨rfl, rfl, rfl⟩
      · rw [if_neg hempty] at hok
        cases hok
  | succ f ih =>
      intro db ids db' ops hok
      rw [rebuildLoopFuel] at hok
      by_cases hempty : ids.isEmpty
      · rw [if_pos hempty] at hok
        cases hok
        exact ⟨rfl, rfl, rfl⟩
      · rw [if_neg hempty] at hok
        by_cases hstop :
            (layerInsert (layerDelete db ids).1 ids).2 = 0 ∧ (layerDelete db ids).2 = 0
        · rw [if_pos hstop] at hok
          cases hok
          exact ⟨rfl, rfl, rfl⟩
        · rw [if_neg hstop] at hok
          cases hrec : rebuildLoopFuel f (layerInsert (layerDelete db ids).1 ids).1
              (childrenOf (layerInsert (layerDelete db ids).1 ids).1 ids) with
          | ok r =>
              obtain ⟨db2, ops2⟩ := r
              simp only [hrec] at hok
              cases hok
              have hfr := ih _ _ _ _ hrec
              simpa [layerInsert, layerDelete] using hfr
          | error e =>
              simp only [hrec] at hok
              cases hok

/-- Roles with equal ids are equal when the `roles` table has no duplicate
primary keys. -/
theorem role_id_inj (db : DBState) (hnodup : (db.roles.map RoleRow.id).Nodup)
    (r r' : RoleRow) (hr : r ∈ db.roles) (hr' : r' ∈ db.roles) (h : r.id = r'.id) :
    r = r' :=
  List.inj_on_of_nodup_map hnodup hr hr' h

/-- Every `new_ancestry_list` row has its descendent in the working set. -/
theorem newAncestryList_desc_mem (db : DBState) (ids : List Nat) (c : AncestorRow)
    (hc : c ∈ newAncestryList db ids) : c.descendent_id ∈ ids := by
  rw [newAncestryList, List.mem_dedup, List.mem_append] at hc
  rcases hc with hc | hc
  · rw [parentSelector, List.mem_flatMap] at hc
    obtain ⟨e, he, hc⟩ := hc
    rw [List.mem_flatMap] at hc
    obtain ⟨r, _, hc⟩ := hc
    rw [List.mem_map] at hc
    obtain ⟨a, _, rfl⟩ := hc
    rw [List.mem_filter] at he
    simpa [List.elem_iff] using he.2
  · rw [selfSelector, List.mem_map] at hc
    obtain ⟨r, hr, rfl⟩ := hc
    rw [List.mem_filter] at hr
    simpa [selfRow, List.elem_iff] using hr.2

/-- With duplicate-free role ids, the only `new_ancestry_list` row whose
descendent and ancestor both equal the id of role `r` is the self row of
`r`. -/
theorem newAncestryList_self_unique (db : DBState) (ids : List Nat)
    (hnodup : (db.roles.map RoleRow.id).Nodup)
    (r : RoleRow) (hr : r ∈ db.roles) (c : AncestorRow)
    (hc : c ∈ newAncestryList db ids)
    (hd : c.descendent_id = r.id) (ha : c.ancestor_id = r.id) : c = selfRow r := by
  rw [newAncestryList, List.mem_dedup, List.mem_append] at hc
  rcases hc with hc | hc
  · rw [parentSelector, List.mem_flatMap] at hc
    obtain ⟨e, _, hc⟩ := hc
    rw [List.mem_flatMap] at hc
    obtain ⟨r', hr', hc⟩ := hc
    rw [List.mem_map] at hc
    obtain ⟨a, _, rfl⟩ := hc
    rw [List.mem_filter] at hr'
    have hid : r'.id = e.1 := by simpa using hr'.2
    have hre : r' = r := by
      refine role_id_inj db hnodup r' r hr'.1 hr ?_
      rw [hid]
      simpa using hd
    subst hre
    simp only [selfRow]
    simp only at hd ha
    simp [hd, ha]
  · rw [selfSelector, List.mem_map] at hc
    obtain ⟨r', hr', rfl⟩ := hc
    rw [List.mem_filter] at hr'
    have : r' = r := by
      refine role_id_inj db hnodup r' r hr'.1 hr ?_
      simpa [selfRow] using hd
    rw [this]

/-- The self row of a role of the working set is a `new_ancestry_list` row. -/
theorem selfRow_mem_newAncestryList (db : DBState) (ids : List Nat) (r : RoleRow)
    (hr : r ∈ db.roles) (hin : r.id ∈ ids) : selfRow r ∈ newAncestryList db ids := by
  rw [newAncestryList, List.mem_dedup, List.mem_append]
  right
  rw [selfSelector, List.mem_map]
  exact ⟨r, List.mem_filter.mpr ⟨hr, by simpa [List.elem_iff] using hin⟩, rfl⟩

end AwxRbac

namespace AwxRbac

/-- Pointwise-equal predicates count equally. -/
theorem countP_congr_mem (l : List AncestorRow) (p q : AncestorRow → Bool)
    (h : ∀ a ∈ l, p a = q a) : l.countP p = l.countP q := by
  induction l with
  | nil => rfl
  | cons x xs ih =>
      rw [List.countP_cons, List.countP_cons, h x (List.mem_cons_self x xs),
        ih (fun a ha => h a (List.mem_cons_of_mem x ha))]

/-- The seed purge zeroes the self count of every seed id. -/
theorem purge_selfCount_in (db : DBState) (ids : List Nat) (R : Nat) (hin : R ∈ ids) :
    selfCount (purgeByAncestor db ids) R = 0 := by
  rw [selfCount, purgeByAncestor]
  simp only [List.countP_filter]
  rw [List.countP_eq_zero]
  intro a _ hpa
  simp only [selfP, Bool.and_eq_true, beq_iff_eq, Bool.not_eq_true'] at hpa
  have hmem : ids.contains a.ancestor_id = true := List.elem_iff.mpr (by rw [hpa.1.2]; exact hin)
  rw [hpa.2] at hmem
  cases hmem

/-- The seed purge leaves the self count of every other id unchanged. -/
theorem purge_selfCount_notin (db : DBState) (ids : List Nat) (R : Nat) (hnotin : R ∉ ids) :
    selfCount (purgeByAncestor db ids) R = selfCount db R := by
  rw [selfCount, purgeByAncestor]
  simp only [List.countP_filter]
  refine countP_congr_mem _ _ _ (fun a _ => ?_)
  by_cases hpa : selfP R a = true
  · have ha : a.ancestor_id = R := by
      simp only [selfP, Bool.and_eq_true, beq_iff_eq] at hpa
      exact hpa.2
    simp [hpa, ha, List.elem_iff, hnotin]
  · simp [Bool.eq_false_iff.mpr hpa]

/-- The layer `DELETE` never removes a self row of an actual role: either the
role is outside the working set and out of the statement's scope, or its self
row matches the self entry of `new_ancestry_list`. -/
theorem layerDelete_selfCount (db : DBState) (ids : List Nat) (r : RoleRow)
    (hr : r ∈ db.roles) :
    selfCount (layerDelete db ids).1 r.id = selfCount db r.id := by
  rw [selfCount, layerDelete]
  simp only [List.countP_filter]
  refine countP_congr_mem _ _ _ (fun a _ => ?_)
  by_cases hpa : selfP r.id a = true
  · have hai : a.descendent_id = r.id ∧ a.ancestor_id = r.id := by
      simpa only [selfP, Bool.and_eq_true, beq_iff_eq] using hpa
    by_cases hin : r.id ∈ ids
    · have hany : (newAncestryList db ids).any (fun c => pairEq c a) = true := by
        rw [List.any_eq_true]
        refine ⟨selfRow r, selfRow_mem_newAncestryList db ids r hr hin, ?_⟩
        simp [pairEq, selfRow, hai.1, hai.2]
      simp [hpa, hany]
    · have hcont : ids.contains a.descendent_id = false := by
        rw [Bool.eq_false_iff]
        intro h
        exact hin (hai.1 ▸ List.elem_iff.mp h)
      simp [hpa, hcont]
      exact Or.inl (by rw [hai.1]; exact hin)
  · simp [Bool.eq_false_iff.mpr hpa]

/-- The layer `INSERT` adds no self row for an id outside the working set. -/
theorem layerInsert_selfCount_notin (db : DBState) (ids : List Nat) (R : Nat)
    (hR : R ∉ ids) :
    selfCount (layerInsert db ids).1 R = selfCount db R := by
  rw [selfCount, layerInsert]
  simp only [List.countP_append]
  have hz : ((newAncestryList db ids).filter
      (fun c => !(db.ancestors.any (fun a => pairEq c a)))).countP (selfP R) = 0 := by
    rw [List.countP_eq_zero]
    intro c hc hpc
    rw [List.mem_filter] at hc
    have hdesc := newAncestryList_desc_mem db ids c hc.1
    simp only [selfP, Bool.and_eq_true, beq_iff_eq] at hpc
    exact hR (hpc.1 ▸ hdesc)
  rw [hz]
  simp [selfCount]

/-- After the layer `INSERT`, a role of the working set whose table held at
most one self row holds exactly one. -/
theorem layerInsert_selfCount_in (db : DBState) (ids : List Nat)
    (hnodup : (db.roles.map RoleRow.id).Nodup) (r : RoleRow) (hr : r ∈ db.roles)
    (hin : r.id ∈ ids) (hle : selfCount db r.id ≤ 1) :
    selfCount (layerInsert db ids).1 r.id = 1 := by
  rw [selfCount, layerInsert]
  simp only [List.countP_append]
  rcases Nat.le_one_iff_eq_zero_or_eq_one.mp hle with h0 | h1
  · rw [selfCount] at h0
    rw [h0, Nat.zero_add]
    have hq : ∀ c ∈ newAncestryList db ids, selfP r.id c = true →
        (!(db.ancestors.any (fun a => pairEq c a))) = true := by
      intro c _ hpc
      simp only [selfP, Bool.and_eq_true, beq_iff_eq] at hpc
      rw [Bool.not_eq_true', List.any_eq_false]
      intro a ha
      intro hpair
      have : selfP r.id a = true := by
        simp only [pairEq, Bool.and_eq_true, beq_iff_eq] at hpair
        simp [selfP, ← hpair.1, ← hpair.2, hpc.1, hpc.2]
      exact (List.countP_pos.mpr ⟨a, ha, this⟩).ne' h0
    rw [List.countP_filter]
    have heq : (newAncestryList db ids).countP
        (fun c => selfP r.id c && !(db.ancestors.any (fun a => pairEq c a))) =
        (newAncestryList db ids).countP (fun c => c == selfRow r) := by
      refine countP_congr_mem _ _ _ (fun c hc => ?_)
      by_cases hpc : selfP r.id c = true
      · have hcself : c = selfRow r := by
          simp only [selfP, Bool.and_eq_true, beq_iff_eq] at hpc
          exact newAncestryList_self_unique db ids hnodup r hr c hc hpc.1 hpc.2
        have hqc := hq c hc hpc
        rw [hcself] at hqc ⊢
        rw [Bool.not_eq_true', List.any_eq_false] at hqc
        have h1s : selfP r.id (selfRow r) = true := by simp [selfP, selfRow]
        have h2s : (!(db.ancestors.any (fun a => pairEq (selfRow r) a))) = true := by
          rw [Bool.not_eq_true', List.any_eq_false]
          intro x hx
          exact hqc x hx
        simp [h1s, h2s]
      · have hcself : (c == selfRow r) = false := by
          rw [beq_eq_false_iff_ne]
          intro hcs
          apply hpc
          rw [hcs]
          simp [selfP, selfRow]
        simp [Bool.eq_false_iff.mpr hpc, hcself]
    rw [heq]
    have : (newAncestryList db ids).count (selfRow r) = 1 :=
      List.count_eq_one_of_mem (List.nodup_dedup _)
        (selfRow_mem_newAncestryList db ids r hr hin)
    simpa [List.count] using this
  · rw [selfCount] at h1
    rw [h1]
    have hz : ((newAncestryList db ids).filter
        (fun c => !(db.ancestors.any (fun a => pairEq c a)))).countP (selfP r.id) = 0 := by
      rw [List.countP_eq_zero]
      intro c hc hpc
      rw [List.mem_filter] at hc
      simp only [selfP, Bool.and_eq_true, beq_iff_eq] at hpc
      obtain ⟨a, ha, hpa⟩ := List.countP_pos.mp (h1 ▸ Nat.one_pos)
      have : pairEq c a = true := by
        simp only [selfP, Bool.and_eq_true, beq_iff_eq] at hpa
        simp [pairEq, hpc.1, hpc.2, hpa.1, hpa.2]
      have hfalse := hc.2
      rw [Bool.not_eq_true', List.any_eq_false] at hfalse
      exact hfalse a ha this
    rw [hz]

end AwxRbac

namespace AwxRbac

/-- Loop invariant for the self rows: if on entry every role has exactly one
self row, except possibly roles of the working set which may have none, then a
committed loop leaves every role with exactly one self row. -/
theorem rebuildLoopFuel_self_invariant (fuel : Nat) :
    ∀ db F db' ops, rebuildLoopFuel fuel db F = .ok (db', ops) →
      (db.roles.map RoleRow.id).Nodup →
      (∀ r ∈ db.roles, selfCount db r.id = 1 ∨ (selfCount db r.id = 0 ∧ r.id ∈ F)) →
      ∀ r ∈ db.roles, selfCount db' r.id = 1 := by
  induction fuel with
  | zero =>
      intro db F db' ops hok hnodup hinv r hr
      rw [rebuildLoopFuel] at hok
      by_cases hempty : F.isEmpty
      · rw [if_pos hempty] at hok
        cases hok
        rcases hinv r hr with h | ⟨_, hmem⟩
        · exact h
        · rw [List.isEmpty_iff] at hempty
          subst hempty
          exact absurd hmem (List.not_mem_nil _)
      · rw [if_neg hempty] at hok
        cases hok
  | succ f ih =>
      intro db F db' ops hok hnodup hinv r hr
      rw [rebuildLoopFuel] at hok
      by_cases hempty : F.isEmpty
      · rw [if_pos hempty] at hok
        cases hok
        rcases hinv r hr with h | ⟨_, hmem⟩
        · exact h
        · rw [List.isEmpty_iff] at hempty
          subst hempty
          exact absurd hmem (List.not_mem_nil _)
      · rw [if_neg hempty] at hok
        have hlayer : ∀ r' ∈ db.roles,
            selfCount (layerInsert (layerDelete db F).1 F).1 r'.id = 1 := by
          intro r' hr'
          have hdel := layerDelete_selfCount db F r' hr'
          by_cases hin : r'.id ∈ F
          · have hle : selfCount (layerDelete db F).1 r'.id ≤ 1 := by
              rw [hdel]
              rcases hinv r' hr' with h | ⟨h0, _⟩
              · rw [h]
              · rw [h0]
                exact Nat.zero_le 1
            exact layerInsert_selfCount_in (layerDelete db F).1 F hnodup r' hr' hin hle
          · have h1 : selfCount db r'.id = 1 := by
              rcases hinv r' hr' with h | ⟨_, hmem⟩
              · exact h
              · exact absurd hmem hin
            rw [layerInsert_selfCount_notin (layerDelete db F).1 F r'.id hin, hdel, h1]
        by_cases hstop :
            (layerInsert (layerDelete db F).1 F).2 = 0 ∧ (layerDelete db F).2 = 0
        · rw [if_pos hstop] at hok
          cases hok
          exact hlayer r hr
        · rw [if_neg hstop] at hok
          cases hrec : rebuildLoopFuel f (layerInsert (layerDelete db F).1 F).1
              (childrenOf (layerInsert (layerDelete db F).1 F).1 F) with
          | ok res =>
              obtain ⟨db2, ops2⟩ := res
              simp only [hrec] at hok
              cases hok
              refine ih (layerInsert (layerDelete db F).1 F).1
                (childrenOf (layerInsert (layerDelete db F).1 F).1 F) _ _ hrec hnodup
                (fun r' hr' => Or.inl (hlayer r' hr')) r hr
          | error e =>
              simp only [hrec] at hok
              cases hok

/-- C2: self-invariant preservation.  If before a mutation every role has
exactly one self row — except that roles whose ids are in the seed (e.g. a role
created by this very mutation) may have none — and the rebuild on that seed
commits, then afterwards the ancestors table contains exactly one row with
`descendent = ancestor = R` for every role `R`.  The `roles` table itself is
untouched.  `hnodup` is the table's primary-key constraint. -/
theorem self_invariant_preserved (db : DBState) (ids : List Nat) (db' : DBState)
    (ops : List SqlOp)
    (hnodup : (db.roles.map RoleRow.id).Nodup)
    (hpre : ∀ r ∈ db.roles, selfCount db r.id = 1 ∨ (selfCount db r.id = 0 ∧ r.id ∈ ids))
    (hok : simultaneous_ancestry_rebuild db ids = .ok (db', ops)) :
    db'.roles = db.roles ∧ ∀ r ∈ db'.roles, selfCount db' r.id = 1 := by
  rw [simultaneous_ancestry_rebuild] at hok
  by_cases hlen : ids.length = 0
  · rw [if_pos hlen] at hok
    cases hok
    refine ⟨rfl, fun r hr => ?_⟩
    rcases hpre r hr with h | ⟨_, hmem⟩
    · exact h
    · rw [List.length_eq_zero] at hlen
      subst hlen
      exact absurd hmem (List.not_mem_nil _)
  · rw [if_neg hlen] at hok
    cases hrec : rebuildLoop (purgeByAncestor db ids) ids 0 with
    | ok res =>
        obtain ⟨db1, ops1⟩ := res
        rw [hrec] at hok
        injection hok with hpair
        injection hpair with hdb hops
        subst hdb
        subst hops
        have hroles : db1.roles = db.roles :=
          (rebuildLoopFuel_frame (1001 - 0) (purgeByAncestor db ids) ids db1 ops1 hrec).1
        have hinv : ∀ r ∈ (purgeByAncestor db ids).roles,
            selfCount (purgeByAncestor db ids) r.id = 1 ∨
              (selfCount (purgeByAncestor db ids) r.id = 0 ∧ r.id ∈ ids) := by
          intro r hr
          by_cases hin : r.id ∈ ids
          · exact Or.inr ⟨purge_selfCount_in db ids r.id hin, hin⟩
          · rcases hpre r hr with h | ⟨_, hmem⟩
            · exact Or.inl (purge_selfCount_notin db ids r.id hin ▸ h)
            · exact absurd hmem hin
        refine ⟨hroles, fun r hr => ?_⟩
        refine rebuildLoopFuel_self_invariant (1001 - 0) (purgeByAncestor db ids) ids db1
          ops1 hrec hnodup hinv r ?_
        show r ∈ db.roles
        rw [← hroles]
        exact hr
    | error e =>
        rw [hrec] at hok
        cases hok

theorem self_invariant_preserved_witness :
    ∃ db' ops,
      simultaneous_ancestry_rebuild ⟨[⟨1, "r", none, none, none⟩], [], [], []⟩ [1] =
        .ok (db', ops) ∧
      db'.roles = [⟨1, "r", none, none, none⟩] ∧
      ∀ r ∈ db'.roles, selfCount db' r.id = 1 := by
  refine ⟨_, _, rfl, ?_⟩
  have h := self_invariant_preserved ⟨[⟨1, "r", none, none, none⟩], [], [], []⟩ [1] _ _
    (by decide) (fun r hr => by
      rcases List.mem_singleton.mp hr with rfl
      exact Or.inr ⟨by decide, by decide⟩) rfl
  exact h

end AwxRbac

namespace AwxRbac

/-- A committed loop run with an empty statement list was called on an empty
working set. -/
theorem rebuildLoopFuel_ok_nil (fuel : Nat) (db : DBState) (ids : List Nat)
    (db' : DBState) (hok : rebuildLoopFuel fuel db ids = .ok (db', [])) : ids = [] := by
  cases fuel with
  | zero =>
      rw [rebuildLoopFuel] at hok
      by_cases hempty : ids.isEmpty
      · exact List.isEmpty_iff.mp hempty
      · rw [if_neg hempty] at hok
        cases hok
  | succ f =>
      rw [rebuildLoopFuel] at hok
      by_cases hempty : ids.isEmpty
      · exact List.isEmpty_iff.mp hempty
      · rw [if_neg hempty] at hok
        by_cases hstop :
            (layerInsert (layerDelete db ids).1 ids).2 = 0 ∧ (layerDelete db ids).2 = 0
        · rw [if_pos hstop] at hok
          cases hok
        · rw [if_neg hstop] at hok
          cases hrec : rebuildLoopFuel f (layerInsert (layerDelete db ids).1 ids).1
              (childrenOf (layerInsert (layerDelete db ids).1 ids).1 ids) with
          | ok res =>
              obtain ⟨db2, ops2⟩ := res
              simp only [hrec] at hok
              cases hok
          | error e =>
              simp only [hrec] at hok
              cases hok

/-- Exhaustive classification of the terminations of the layer loop: it aborts
with the infinite-loop exception, or it commits — and then its statement list
is empty (the initial working set was empty), or ends with a layer whose
`DELETE` and `INSERT` both reported no affected rows, or ends with a descent
query that returned no children. -/
theorem rebuildLoopFuel_termination (fuel : Nat) :
    ∀ db ids, (rebuildLoopFuel fuel db ids = .error infiniteLoopMsg) ∨
      (∃ db' ops, rebuildLoopFuel fuel db ids = .ok (db', ops) ∧
        (ops = [] ∨
         (∃ pre l, ops = pre ++ [SqlOp.layerDeleteStmt l 0, SqlOp.layerInsertStmt l 0]) ∨
         (∃ pre l, ops = pre ++ [SqlOp.childrenStmt l []]))) := by
  induction fuel with
  | zero =>
      intro db ids
      by_cases hempty : ids.isEmpty
      · exact Or.inr ⟨db, [], by rw [rebuildLoopFuel, if_pos hempty], Or.inl rfl⟩
      · exact Or.inl (by rw [rebuildLoopFuel, if_neg hempty])
  | succ f ih =>
      intro db ids
      by_cases hempty : ids.isEmpty
      · exact Or.inr ⟨db, [], by rw [rebuildLoopFuel, if_pos hempty], Or.inl rfl⟩
      · by_cases hstop :
            (layerInsert (layerDelete db ids).1 ids).2 = 0 ∧ (layerDelete db ids).2 = 0
        · refine Or.inr ⟨(layerInsert (layerDelete db ids).1 ids).1, _,
            by rw [rebuildLoopFuel, if_neg hempty, if_pos hstop], Or.inr (Or.inl ?_)⟩
          refine ⟨[], ids, ?_⟩
          rw [hstop.1, hstop.2]
          rfl
        · rcases ih (layerInsert (layerDelete db ids).1 ids).1
              (childrenOf (layerInsert (layerDelete db ids).1 ids).1 ids) with herr | hok
          · refine Or.inl ?_
            rw [rebuildLoopFuel, if_neg hempty, if_neg hstop]
            simp only [herr]
          · obtain ⟨db2, ops2, hok2, hshape⟩ := hok
            refine Or.inr ⟨db2, _,
              by rw [rebuildLoopFuel, if_neg hempty, if_neg hstop]; simp only [hok2]; rfl, ?_⟩
            rcases hshape with hnil | ⟨pre, l, hend⟩ | ⟨pre, l, hend⟩
            · subst hnil
              have hnext := rebuildLoopFuel_ok_nil f _ _ _ hok2
              refine Or.inr (Or.inr ⟨[SqlOp.layerDeleteStmt ids (layerDelete db ids).2,
                SqlOp.layerInsertStmt ids (layerInsert (layerDelete db ids).1 ids).2], ids, ?_⟩)
              rw [hnext]
              rfl
            · subst hend
              exact Or.inr (Or.inl ⟨SqlOp.layerDeleteStmt ids (layerDelete db ids).2 ::
                SqlOp.layerInsertStmt ids (layerInsert (layerDelete db ids).1 ids).2 ::
                SqlOp.childrenStmt ids _ :: pre, l, rfl⟩)
            · subst hend
              exact Or.inr (Or.inr ⟨SqlOp.layerDeleteStmt ids (layerDelete db ids).2 ::
                SqlOp.layerInsertStmt ids (layerInsert (layerDelete db ids).1 ids).2 ::
                SqlOp.childrenStmt ids _ :: pre, l, rfl⟩)

/-- C4 (amended): the rebuild loop always terminates, in exactly one of three
ways: a layer performs no deletes and no inserts, or the descendant frontier
becomes empty (possibly right after a layer that did work), or — once more than
the safety limit of 1000 layers has executed — it aborts by raising the
internal-consistency failure to the caller. -/
theorem rebuild_loop_termination (db : DBState) (ids : List Nat) (loop_ct : Nat) :
    (rebuildLoop db ids loop_ct = .error infiniteLoopMsg) ∨
    (∃ db' ops, rebuildLoop db ids loop_ct = .ok (db', ops) ∧
      (ops = [] ∨
       (∃ pre l, ops = pre ++ [SqlOp.layerDeleteStmt l 0, SqlOp.layerInsertStmt l 0]) ∨
       (∃ pre l, ops = pre ++ [SqlOp.childrenStmt l []]))) :=
  rebuildLoopFuel_termination (1001 - loop_ct) db ids

/-- Recognizer for a layer `INSERT` statement that affected no rows. -/
def isZeroInsert : SqlOp → Bool
  | .layerInsertStmt _ 0 => true
  | _ => false

/-- C4 (counterexample to the claim as stated): rebuilding a fresh role with no
edges commits after a single layer whose `INSERT` affected one row — the loop
terminates although no layer performed "no deletes and no inserts" and no abort
was raised: it exits because the descendant frontier became empty. -/
theorem loop_can_terminate_with_work :
    simultaneous_ancestry_rebuild ⟨[⟨7, "r", none, none, none⟩], [], [], []⟩ [7] =
      .ok (⟨[⟨7, "r", none, none, none⟩], [], [⟨7, 7, "r", 0, 0⟩], []⟩,
        [.purgeStmt [7], .layerDeleteStmt [7] 0, .layerInsertStmt [7] 1,
         .childrenStmt [7] []]) ∧
    ([SqlOp.purgeStmt [7], .layerDeleteStmt [7] 0, .layerInsertStmt [7] 1,
      .childrenStmt [7] []].all (fun op => !(isZeroInsert op))) = true := by
  constructor
  · rfl
  · decide

end AwxRbac

namespace AwxRbac

/-! ### Pair-level view of the ancestors table, and candidate membership -/

/-- The id column values of the `roles` table. -/
def roleIds (db : DBState) : List Nat := db.roles.map RoleRow.id

/-- The table holds some row with the given `(descendent, ancestor)` pair. -/
def hasPair (db : DBState) (d a : Nat) : Prop :=
  ∃ row ∈ db.ancestors, row.descendent_id = d ∧ row.ancestor_id = a

/-- Referential integrity of the `parents` table (its two columns are foreign
keys into `roles`). -/
def edgesFK (db : DBState) : Prop :=
  ∀ e ∈ db.parents, e.1 ∈ roleIds db ∧ e.2 ∈ roleIds db

/-- The canonical ancestor row produced by the rebuild statements for
descendent role `r` and ancestor id `a`: the denormalized columns are copied
from `r`. -/
def rowFor (r : RoleRow) (a : Nat) : AncestorRow :=
  ⟨r.id, a, r.role_field, coalesce0 r.content_type_id, coalesce0 r.object_id⟩

theorem selfRow_eq_rowFor (r : RoleRow) : selfRow r = rowFor r r.id := rfl

/-- Membership characterization of the `new_ancestry_list` inner query. -/
theorem mem_newAncestryList_iff (db : DBState) (ids : List Nat) (c : AncestorRow) :
    c ∈ newAncestryList db ids ↔
      (∃ e ∈ db.parents, e.1 ∈ ids ∧ (∃ r ∈ db.roles, r.id = e.1 ∧
        ∃ a ∈ db.ancestors, a.descendent_id = e.2 ∧ c = rowFor r a.ancestor_id)) ∨
      (∃ r ∈ db.roles, r.id ∈ ids ∧ c = selfRow r) := by
  rw [newAncestryList, List.mem_dedup, List.mem_append]
  constructor
  · rintro (hc | hc)
    · rw [parentSelector, List.mem_flatMap] at hc
      obtain ⟨e, he, hc⟩ := hc
      rw [List.mem_flatMap] at hc
      obtain ⟨r, hr, hc⟩ := hc
      rw [List.mem_map] at hc
      obtain ⟨a, ha, rfl⟩ := hc
      rw [List.mem_filter] at he hr ha
      refine Or.inl ⟨e, he.1, by simpa [List.elem_iff] using he.2, r, hr.1,
        by simpa using hr.2, a, ha.1, by simpa using ha.2, ?_⟩
      simp only [rowFor]
      have : r.id = e.1 := by simpa using hr.2
      rw [this]
    · rw [selfSelector, List.mem_map] at hc
      obtain ⟨r, hr, rfl⟩ := hc
      rw [List.mem_filter] at hr
      exact Or.inr ⟨r, hr.1, by simpa [List.elem_iff] using hr.2, rfl⟩
  · rintro (⟨e, he, hein, r, hr, hrid, a, ha, hadesc, rfl⟩ | ⟨r, hr, hrin, rfl⟩)
    · left
      rw [parentSelector, List.mem_flatMap]
      refine ⟨e, List.mem_filter.mpr ⟨he, by simpa [List.elem_iff] using hein⟩, ?_⟩
      rw [List.mem_flatMap]
      refine ⟨r, List.mem_filter.mpr ⟨hr, by simpa using hrid⟩, ?_⟩
      rw [List.mem_map]
      refine ⟨a, List.mem_filter.mpr ⟨ha, by simpa using hadesc⟩, ?_⟩
      simp only [rowFor, hrid]
    · right
      rw [selfSelector, List.mem_map]
      exact ⟨r, List.mem_filter.mpr ⟨hr, by simpa [List.elem_iff] using hrin⟩, rfl⟩

/-- Rows kept by the layer `DELETE`: scope exclusion or a matching candidate
pair. -/
theorem mem_layerDelete_iff (db : DBState) (ids : List Nat) (row : AncestorRow) :
    row ∈ (layerDelete db ids).1.ancestors ↔
      row ∈ db.ancestors ∧
        (row.descendent_id ∉ ids ∨ ∃ c ∈ newAncestryList db ids, pairEq c row = true) := by
  rw [layerDelete]
  simp only [List.mem_filter, Bool.or_eq_true, Bool.not_eq_true', List.any_eq_true]
  constructor
  · rintro ⟨hmem, h | h⟩
    · refine ⟨hmem, Or.inl ?_⟩
      intro hin
      simp [List.elem_iff, hin] at h
    · exact ⟨hmem, Or.inr h⟩
  · rintro ⟨hmem, h | h⟩
    · refine ⟨hmem, Or.inl ?_⟩
      simp only [List.elem_iff, Bool.eq_false_iff, ne_eq]
      simpa using h
    · exact ⟨hmem, Or.inr h⟩

/-- Rows of the table after the layer `INSERT`: the old rows plus candidates
whose pair was absent. -/
theorem mem_layerInsert_iff (db : DBState) (ids : List Nat) (row : AncestorRow) :
    row ∈ (layerInsert db ids).1.ancestors ↔
      row ∈ db.ancestors ∨
        (row ∈ newAncestryList db ids ∧
          ∀ a ∈ db.ancestors, pairEq row a = false) := by
  rw [layerInsert]
  simp only [List.mem_append, List.mem_filter, Bool.not_eq_true', List.any_eq_false]
  constructor
  · rintro (h | ⟨hc, hno⟩)
    · exact Or.inl h
    · exact Or.inr ⟨hc, fun a ha => Bool.eq_false_iff.mpr (hno a ha)⟩
  · rintro (h | ⟨hc, hno⟩)
    · exact Or.inl h
    · exact Or.inr ⟨hc, fun a ha => Bool.eq_false_iff.mp (hno a ha)⟩

end AwxRbac

namespace AwxRbac

/-! ### Seed-column invariants of the rebuild (claims C7 and C4) -/

/-- Membership in the purged table. -/
theorem mem_purgeByAncestor (db : DBState) (ids : List Nat) (row : AncestorRow) :
    row ∈ (purgeByAncestor db ids).ancestors ↔
      row ∈ db.ancestors ∧ row.ancestor_id ∉ ids := by
  simp [purgeByAncestor, List.mem_filter]

/-- Reachability only depends on the `parents` table. -/
theorem reachable_of_parents_eq (db db' : DBState) (h : db.parents = db'.parents)
    (x y : Nat) (hr : reachable db x y) : reachable db' x y := by
  refine Relation.ReflTransGen.mono ?_ hr
  intro a b hab
  rw [parentHop, ← h]
  exact hab

/-- Membership in the descent query result. -/
theorem mem_childrenOf_iff (db : DBState) (ids : List Nat) (x : Nat) :
    x ∈ childrenOf db ids ↔
      ∃ r ∈ db.roles, r.id ∈ ids ∧ (x, r.id) ∈ db.parents := by
  rw [childrenOf, List.mem_dedup, List.mem_flatMap]
  constructor
  · rintro ⟨r, hr, hx⟩
    rw [List.mem_filter] at hr
    rw [List.mem_map] at hx
    obtain ⟨e, he, rfl⟩ := hx
    rw [List.mem_filter] at he
    obtain ⟨e1, e2⟩ := e
    have he2 : e2 = r.id := by simpa using he.2
    subst he2
    exact ⟨r, hr.1, by simpa [List.elem_iff] using hr.2, he.1⟩
  · rintro ⟨r, hr, hrin, hedge⟩
    refine ⟨r, List.mem_filter.mpr ⟨hr, by simpa [List.elem_iff] using hrin⟩, ?_⟩
    rw [List.mem_map]
    exact ⟨(x, r.id), List.mem_filter.mpr ⟨hedge, by simp⟩, rfl⟩

/-- Invariant on the seed columns of the table during a rebuild with seed `S`:
every row whose ancestor lies in `S` is the canonical denormalized row of some
role, a genuinely reachable pair, and witnessed — either a self row or
justified by a parent's row with the same ancestor. -/
def sigmaState (S : List Nat) (db : DBState) : Prop :=
  ∀ row ∈ db.ancestors, row.ancestor_id ∈ S →
    (∃ r ∈ db.roles, r.id = row.descendent_id ∧ row = rowFor r row.ancestor_id) ∧
    reachable db row.descendent_id row.ancestor_id ∧
    (row.descendent_id = row.ancestor_id ∨
      ∃ p, (row.descendent_id, p) ∈ db.parents ∧ hasPair db p row.ancestor_id)

/-- Frontier-excused closure of the seed columns: whenever a parent holds a
seed-column row, its child holds the corresponding row too, or the child is in
the current working set and will be processed. -/
def sigmaClosed (S : List Nat) (db : DBState) (F : List Nat) : Prop :=
  ∀ x p σ, σ ∈ S → x ∈ roleIds db → (x, p) ∈ db.parents → hasPair db p σ →
    hasPair db x σ ∨ x ∈ F

/-- Frontier-excused grounding: every seed role has its self row, or is still
in the working set. -/
def sigmaGrounded (S : List Nat) (db : DBState) (F : List Nat) : Prop :=
  ∀ σ ∈ S, σ ∈ roleIds db → hasPair db σ σ ∨ σ ∈ F

/-- The layer `DELETE` never removes a seed-column row: its witness makes it a
`new_ancestry_list` pair. -/
theorem sigma_row_not_deleted (S : List Nat) (db : DBState) (F : List Nat)
    (hsig : sigmaState S db) (row : AncestorRow) (hrow : row ∈ db.ancestors)
    (hanc : row.ancestor_id ∈ S) :
    row ∈ (layerDelete db F).1.ancestors := by
  rw [mem_layerDelete_iff]
  refine ⟨hrow, ?_⟩
  by_cases hin : row.descendent_id ∈ F
  · right
    obtain ⟨⟨r, hr, hrid, _⟩, _, hwit⟩ := hsig row hrow hanc
    rcases hwit with hself | ⟨p, hedge, prow, hprow, hpd, hpa⟩
    · refine ⟨selfRow r, ?_, ?_⟩
      · exact (mem_newAncestryList_iff db F _).mpr (Or.inr ⟨r, hr, hrid ▸ hin, rfl⟩)
      · simp [pairEq, selfRow, hrid, hself]
    · refine ⟨rowFor r row.ancestor_id, ?_, ?_⟩
      · refine (mem_newAncestryList_iff db F _).mpr (Or.inl
          ⟨(row.descendent_id, p), hedge, hin, r, hr, by simpa using hrid, prow, hprow,
            by simpa using hpd, ?_⟩)
        rw [hpa]
      · simp [pairEq, rowFor, hrid]
  · exact Or.inl hin

/-- Old rows survive the layer `INSERT`. -/
theorem mem_layerInsert_of_mem (db : DBState) (ids : List Nat) (row : AncestorRow)
    (h : row ∈ db.ancestors) : row ∈ (layerInsert db ids).1.ancestors :=
  (mem_layerInsert_iff db ids row).mpr (Or.inl h)

/-- `hasPair` persists through the layer `INSERT`. -/
theorem hasPair_layerInsert (db : DBState) (ids : List Nat) (d a : Nat)
    (h : hasPair db d a) : hasPair (layerInsert db ids).1 d a := by
  obtain ⟨row, hrow, hd, ha⟩ := h
  exact ⟨row, mem_layerInsert_of_mem db ids row hrow, hd, ha⟩

/-- `hasPair` on seed columns persists through the layer `DELETE`. -/
theorem sigma_hasPair_layerDelete (S : List Nat) (db : DBState) (F : List Nat)
    (hsig : sigmaState S db) (d σ : Nat) (hσ : σ ∈ S) (h : hasPair db d σ) :
    hasPair (layerDelete db F).1 d σ := by
  obtain ⟨row, hrow, hd, ha⟩ := h
  exact ⟨row, sigma_row_not_deleted S db F hsig row hrow (ha ▸ hσ), hd, ha⟩

end AwxRbac

namespace AwxRbac

/-- The seed-column invariant survives the layer `DELETE`. -/
theorem sigmaState_layerDelete (S : List Nat) (db : DBState) (F : List Nat)
    (hsig : sigmaState S db) : sigmaState S (layerDelete db F).1 := by
  intro row hrow hanc
  have hrow0 : row ∈ db.ancestors := ((mem_layerDelete_iff db F row).mp hrow).1
  obtain ⟨hcanon, hreach, hwit⟩ := hsig row hrow0 hanc
  refine ⟨hcanon, reachable_of_parents_eq db _ rfl _ _ hreach, ?_⟩
  rcases hwit with h | ⟨p, hedge, hp⟩
  · exact Or.inl h
  · exact Or.inr ⟨p, hedge,
      sigma_hasPair_layerDelete S db F hsig p row.ancestor_id hanc hp⟩

/-- The seed-column invariant survives a full layer. -/
theorem sigmaState_layer (S : List Nat) (db : DBState) (F : List Nat)
    (hsig : sigmaState S db) :
    sigmaState S (layerInsert (layerDelete db F).1 F).1 := by
  have hsig1 := sigmaState_layerDelete S db F hsig
  intro row hrow hanc
  rw [mem_layerInsert_iff] at hrow
  rcases hrow with hold | ⟨hc, _⟩
  · obtain ⟨hcanon, hreach, hwit⟩ := hsig1 row hold hanc
    refine ⟨hcanon, reachable_of_parents_eq _ _ rfl _ _ hreach, ?_⟩
    rcases hwit with h | ⟨p, hedge, hp⟩
    · exact Or.inl h
    · exact Or.inr ⟨p, hedge, hasPair_layerInsert _ F _ _ hp⟩
  · rw [mem_newAncestryList_iff] at hc
    rcases hc with ⟨e, hedge, hein, r, hr, hrid, a, ha, hadesc, rfl⟩ | ⟨r, hr, hrin, rfl⟩
    · obtain ⟨e1, e2⟩ := e
      simp only at hrid hadesc
      have hanc' : a.ancestor_id ∈ S := hanc
      obtain ⟨_, hareach, _⟩ := hsig1 a ha hanc'
      refine ⟨⟨r, hr, rfl, rfl⟩, ?_, ?_⟩
      · refine Relation.ReflTransGen.head ?_
          (reachable_of_parents_eq _ _ rfl _ _ hareach)
        show ((rowFor r a.ancestor_id).descendent_id, a.descendent_id) ∈ _
        rw [hadesc]
        show (r.id, e2) ∈ db.parents
        rw [hrid]
        exact hedge
      · refine Or.inr ⟨e2, ?_, ?_⟩
        · show ((rowFor r a.ancestor_id).descendent_id, e2) ∈ db.parents
          show (r.id, e2) ∈ db.parents
          rw [hrid]
          exact hedge
        · exact hasPair_layerInsert _ F _ _ ⟨a, ha, hadesc, rfl⟩
    · refine ⟨⟨r, hr, rfl, selfRow_eq_rowFor r⟩, ?_, Or.inl rfl⟩
      show reachable _ r.id r.id
      exact Relation.ReflTransGen.refl

end AwxRbac

namespace AwxRbac

/-- A zero-rowcount layer `DELETE` kept the table unchanged. -/
theorem layerDelete_zero_eq (db : DBState) (F : List Nat)
    (h : (layerDelete db F).2 = 0) : (layerDelete db F).1 = db := by
  have hlen : db.ancestors.length ≤
      (db.ancestors.filter (fun a =>
        !(F.contains a.descendent_id) ||
          (newAncestryList db F).any (fun c => pairEq c a))).length := by
    have := h
    rw [layerDelete] at this
    simp only at this
    omega
  have hfull : (db.ancestors.filter (fun a =>
      !(F.contains a.descendent_id) ||
        (newAncestryList db F).any (fun c => pairEq c a))) = db.ancestors := by
    refine (List.filter_sublist _).eq_of_length ?_
    have hle := List.length_filter_le (fun a =>
      !(F.contains a.descendent_id) ||
        (newAncestryList db F).any (fun c => pairEq c a)) db.ancestors
    omega
  rw [layerDelete]
  simp only [hfull]

/-- A zero-rowcount layer `INSERT` found every candidate pair present. -/
theorem layerInsert_zero_all_present (db : DBState) (F : List Nat)
    (h : (layerInsert db F).2 = 0) :
    ∀ c ∈ newAncestryList db F, ∃ a ∈ db.ancestors, pairEq c a = true := by
  intro c hc
  have hnil : (newAncestryList db F).filter
      (fun c => !(db.ancestors.any (fun a => pairEq c a))) = [] := by
    have := h
    rw [layerInsert] at this
    simp only at this
    exact List.eq_nil_of_length_eq_zero this
  have := List.filter_eq_nil_iff.mp hnil c hc
  rw [Bool.not_eq_true', Bool.not_eq_false, List.any_eq_true] at this
  obtain ⟨a, ha, hpa⟩ := this
  exact ⟨a, ha, hpa⟩

/-- A zero-rowcount layer `INSERT` kept the table unchanged. -/
theorem layerInsert_zero_eq (db : DBState) (F : List Nat)
    (h : (layerInsert db F).2 = 0) : (layerInsert db F).1 = db := by
  have hnil : (newAncestryList db F).filter
      (fun c => !(db.ancestors.any (fun a => pairEq c a))) = [] := by
    have := h
    rw [layerInsert] at this
    simp only at this
    exact List.eq_nil_of_length_eq_zero this
  rw [layerInsert]
  simp only [hnil, List.append_nil]

/-- The closure invariant is preserved by a full layer, descending to the
children of the working set. -/
theorem sigmaClosed_layer (S : List Nat) (db : DBState) (F : List Nat)
    (hsig : sigmaState S db) (hcl : sigmaClosed S db F) :
    sigmaClosed S (layerInsert (layerDelete db F).1 F).1
      (childrenOf (layerInsert (layerDelete db F).1 F).1 F) := by
  intro x p σ hσ hxrole hedge hpair
  obtain ⟨prow, hprow, hpd, hpa⟩ := hpair
  rw [mem_layerInsert_iff] at hprow
  have hxrole' : x ∈ roleIds db := hxrole
  obtain ⟨rx, hrx, hrxid⟩ := List.mem_map.mp hxrole'
  rcases hprow with hold | ⟨hc, _⟩
  · have hpdb : hasPair db p σ :=
      ⟨prow, ((mem_layerDelete_iff db F prow).mp hold).1, hpd, hpa⟩
    rcases hcl x p σ hσ hxrole' hedge hpdb with hx | hxF
    · exact Or.inl (hasPair_layerInsert _ F _ _
        (sigma_hasPair_layerDelete S db F hsig x σ hσ hx))
    · left
      have hp1 : hasPair (layerDelete db F).1 p σ :=
        sigma_hasPair_layerDelete S db F hsig p σ hσ hpdb
      obtain ⟨prow1, hprow1, hpd1, hpa1⟩ := hp1
      have hc : rowFor rx σ ∈ newAncestryList (layerDelete db F).1 F := by
        refine (mem_newAncestryList_iff _ F _).mpr (Or.inl
          ⟨(x, p), hedge, hxF, rx, hrx, by simpa using hrxid, prow1, hprow1,
            by simpa using hpd1, ?_⟩)
        rw [hpa1]
      by_cases hpresent : ∃ a ∈ (layerDelete db F).1.ancestors, pairEq (rowFor rx σ) a = true
      · obtain ⟨a, ha, hpaeq⟩ := hpresent
        simp only [pairEq, rowFor, Bool.and_eq_true, beq_iff_eq] at hpaeq
        exact ⟨a, mem_layerInsert_of_mem _ F a ha, by rw [← hpaeq.1, hrxid],
          by rw [← hpaeq.2]⟩
      · refine ⟨rowFor rx σ, (mem_layerInsert_iff _ F _).mpr (Or.inr ⟨hc, ?_⟩),
          by simpa [rowFor] using hrxid, rfl⟩
        intro a ha
        rw [Bool.eq_false_iff]
        intro hpaeq
        exact hpresent ⟨a, ha, hpaeq⟩
  · right
    have hpdesc : prow.descendent_id ∈ F := newAncestryList_desc_mem _ F prow hc
    have hprole : ∃ r ∈ db.roles, r.id = prow.descendent_id := by
      rcases (mem_newAncestryList_iff _ F prow).mp hc with
        ⟨e, _, _, r, hr, hrid, a, _, _, heq⟩ | ⟨r, hr, _, heq⟩
      · exact ⟨r, hr, by rw [heq]; rfl⟩
      · exact ⟨r, hr, by rw [heq]; rfl⟩
    obtain ⟨rp, hrp, hrpid⟩ := hprole
    rw [mem_childrenOf_iff]
    exact ⟨rp, hrp, by rw [hrpid]; exact hpdesc, by rw [hrpid, hpd]; exact hedge⟩

/-- After one full layer, every seed role of the working set is grounded, and
previously grounded roles stay grounded. -/
theorem sigmaGrounded_layer (S : List Nat) (db : DBState) (F : List Nat)
    (hsig : sigmaState S db) (hgr : sigmaGrounded S db F) (F' : List Nat) :
    sigmaGrounded S (layerInsert (layerDelete db F).1 F).1 F' := by
  intro σ hσ hσrole
  left
  obtain ⟨rσ, hrσ, hrσid⟩ := List.mem_map.mp (show σ ∈ roleIds db from hσrole)
  rcases hgr σ hσ hσrole with hp | hF
  · exact hasPair_layerInsert _ F _ _ (sigma_hasPair_layerDelete S db F hsig σ σ hσ hp)
  · have hc : selfRow rσ ∈ newAncestryList (layerDelete db F).1 F :=
      (mem_newAncestryList_iff _ F _).mpr (Or.inr ⟨rσ, hrσ, hrσid ▸ hF, rfl⟩)
    by_cases hpresent :
        ∃ a ∈ (layerDelete db F).1.ancestors, pairEq (selfRow rσ) a = true
    · obtain ⟨a, ha, hpaeq⟩ := hpresent
      simp only [pairEq, selfRow, Bool.and_eq_true, beq_iff_eq] at hpaeq
      exact ⟨a, mem_layerInsert_of_mem _ F a ha, by rw [← hpaeq.1, hrσid],
        by rw [← hpaeq.2, hrσid]⟩
    · refine ⟨selfRow rσ, (mem_layerInsert_iff _ F _).mpr (Or.inr ⟨hc, ?_⟩),
        by simpa [selfRow] using hrσid, by simpa [selfRow] using hrσid⟩
      intro a ha
      rw [Bool.eq_false_iff]
      intro hpaeq
      exact hpresent ⟨a, ha, hpaeq⟩

end AwxRbac

namespace AwxRbac

/-- A layer with zero delete and insert rowcounts leaves the store unchanged. -/
theorem layer_zero_work_eq (db : DBState) (F : List Nat)
    (hzero : (layerInsert (layerDelete db F).1 F).2 = 0 ∧ (layerDelete db F).2 = 0) :
    (layerInsert (layerDelete db F).1 F).1 = db := by
  have hd := layerDelete_zero_eq db F hzero.2
  have hi := hzero.1
  rw [hd] at hi ⊢
  exact layerInsert_zero_eq db F hi

/-- At a zero-work layer, the frontier excuses of the closure and grounding
invariants are discharged: each candidate the excuse relies on is already
present. -/
theorem sigma_discharge_zero (S : List Nat) (db : DBState) (F : List Nat)
    (hcl : sigmaClosed S db F) (hgr : sigmaGrounded S db F)
    (hzero : (layerInsert (layerDelete db F).1 F).2 = 0 ∧ (layerDelete db F).2 = 0) :
    sigmaClosed S db [] ∧ sigmaGrounded S db [] := by
  have hd := layerDelete_zero_eq db F hzero.2
  have hi := hzero.1
  rw [hd] at hi
  have hall := layerInsert_zero_all_present db F hi
  constructor
  · intro x p σ hσ hxrole hedge hpair
    rcases hcl x p σ hσ hxrole hedge hpair with hx | hxF
    · exact Or.inl hx
    · left
      obtain ⟨rx, hrx, hrxid⟩ := List.mem_map.mp hxrole
      obtain ⟨prow, hprow, hpd, hpa⟩ := hpair
      have hc : rowFor rx σ ∈ newAncestryList db F :=
        (mem_newAncestryList_iff db F _).mpr (Or.inl
          ⟨(x, p), hedge, hxF, rx, hrx, by simpa using hrxid, prow, hprow,
            by simpa using hpd, by rw [hpa]⟩)
      obtain ⟨a, ha, hpaeq⟩ := hall _ hc
      simp only [pairEq, rowFor, Bool.and_eq_true, beq_iff_eq] at hpaeq
      exact ⟨a, ha, by rw [← hpaeq.1, hrxid], by rw [← hpaeq.2]⟩
  · intro σ hσ hσrole
    rcases hgr σ hσ hσrole with hp | hF
    · exact Or.inl hp
    · left
      obtain ⟨rσ, hrσ, hrσid⟩ := List.mem_map.mp hσrole
      have hc : selfRow rσ ∈ newAncestryList db F :=
        (mem_newAncestryList_iff db F _).mpr (Or.inr ⟨rσ, hrσ, hrσid ▸ hF, rfl⟩)
      obtain ⟨a, ha, hpaeq⟩ := hall _ hc
      simp only [pairEq, selfRow, Bool.and_eq_true, beq_iff_eq] at hpaeq
      exact ⟨a, ha, by rw [← hpaeq.1, hrσid], by rw [← hpaeq.2, hrσid]⟩

/-- The three seed-column invariants are carried through the layer loop; a
committed loop discharges all frontier excuses. -/
theorem rebuildLoopFuel_sigma (S : List Nat) (fuel : Nat) :
    ∀ db F db' ops, rebuildLoopFuel fuel db F = .ok (db', ops) →
      sigmaState S db → sigmaClosed S db F → sigmaGrounded S db F →
      sigmaState S db' ∧ sigmaClosed S db' [] ∧ sigmaGrounded S db' [] := by
  induction fuel with
  | zero =>
      intro db F db' ops hok hsig hcl hgr
      rw [rebuildLoopFuel] at hok
      by_cases hempty : F.isEmpty
      · rw [if_pos hempty] at hok
        cases hok
        rw [List.isEmpty_iff] at hempty
        subst hempty
        exact ⟨hsig, hcl, hgr⟩
      · rw [if_neg hempty] at hok
        cases hok
  | succ f ih =>
      intro db F db' ops hok hsig hcl hgr
      rw [rebuildLoopFuel] at hok
      by_cases hempty : F.isEmpty
      · rw [if_pos hempty] at hok
        cases hok
        rw [List.isEmpty_iff] at hempty
        subst hempty
        exact ⟨hsig, hcl, hgr⟩
      · rw [if_neg hempty] at hok
        by_cases hstop :
            (layerInsert (layerDelete db F).1 F).2 = 0 ∧ (layerDelete db F).2 = 0
        · rw [if_pos hstop] at hok
          cases hok
          rw [layer_zero_work_eq db F hstop]
          obtain ⟨hcl', hgr'⟩ := sigma_discharge_zero S db F hcl hgr hstop
          exact ⟨hsig, hcl', hgr'⟩
        · rw [if_neg hstop] at hok
          cases hrec : rebuildLoopFuel f (layerInsert (layerDelete db F).1 F).1
              (childrenOf (layerInsert (layerDelete db F).1 F).1 F) with
          | ok res =>
              obtain ⟨db2, ops2⟩ := res
              simp only [hrec] at hok
              cases hok
              exact ih _ _ _ _ hrec (sigmaState_layer S db F hsig)
                (sigmaClosed_layer S db F hsig hcl)
                (sigmaGrounded_layer S db F hsig hgr _)
          | error e =>
              simp only [hrec] at hok
              cases hok

/-- With the excuses discharged, a grounded closed state contains a row for
every reachable seed pair over actual roles. -/
theorem sigma_completeness (S : List Nat) (db : DBState) (hFK : edgesFK db)
    (hcl : sigmaClosed S db []) (hgr : sigmaGrounded S db []) :
    ∀ x σ, σ ∈ S → σ ∈ roleIds db → reachable db x σ →
      x ∈ roleIds db → hasPair db x σ := by
  intro x σ hσ hσrole hreach
  induction hreach using Relation.ReflTransGen.head_induction_on with
  | refl =>
      intro _
      rcases hgr σ hσ hσrole with h | h
      · exact h
      · exact absurd h (List.not_mem_nil _)
  | head hstep _ ih =>
      intro harole
      rename_i a c _
      have hcrole : c ∈ roleIds db := (hFK (a, c) hstep).2
      rcases hcl a c σ hσ harole hstep (ih hcrole) with h | h
      · exact h
      · exact absurd h (List.not_mem_nil _)

end AwxRbac

namespace AwxRbac

/-- Seed-column characterization of any committed rebuild: all rows whose
ancestor lies in the seed are canonical reachable pairs, and every reachable
pair `(x, σ)` over actual roles with `σ` in the seed is present.  The broken
part of the rebuild (claim C1) lives entirely outside the seed columns. -/
theorem rebuild_sigma (db : DBState) (S : List Nat) (db' : DBState) (ops : List SqlOp)
    (hok : simultaneous_ancestry_rebuild db S = .ok (db', ops)) (hFK : edgesFK db) :
    (∀ row ∈ db'.ancestors, row.ancestor_id ∈ S →
      (∃ r ∈ db.roles, r.id = row.descendent_id ∧ row = rowFor r row.ancestor_id) ∧
      reachable db row.descendent_id row.ancestor_id) ∧
    (∀ x σ, σ ∈ S → x ∈ roleIds db → σ ∈ roleIds db → reachable db x σ →
      hasPair db' x σ) := by
  rw [simultaneous_ancestry_rebuild] at hok
  by_cases hlen : S.length = 0
  · rw [if_pos hlen] at hok
    cases hok
    rw [List.length_eq_zero] at hlen
    subst hlen
    constructor
    · intro row _ hanc
      exact absurd hanc (List.not_mem_nil _)
    · intro x σ hσ
      exact absurd hσ (List.not_mem_nil _)
  · rw [if_neg hlen] at hok
    cases hrec : rebuildLoop (purgeByAncestor db S) S 0 with
    | ok res =>
        obtain ⟨db1, ops1⟩ := res
        rw [hrec] at hok
        injection hok with hpair
        injection hpair with hdb hops
        subst hdb
        subst hops
        have hsigP : sigmaState S (purgeByAncestor db S) := by
          intro row hrow hanc
          exact absurd hanc ((mem_purgeByAncestor db S row).mp hrow).2
        have hclP : sigmaClosed S (purgeByAncestor db S) S := by
          intro x p σ hσ _ _ hpair
          obtain ⟨prow, hprow, _, hpa⟩ := hpair
          exact absurd (hpa ▸ hσ) ((mem_purgeByAncestor db S prow).mp hprow).2
        have hgrP : sigmaGrounded S (purgeByAncestor db S) S := fun σ hσ _ => Or.inr hσ
        obtain ⟨hsig', hcl', hgr'⟩ :=
          rebuildLoopFuel_sigma S (1001 - 0) (purgeByAncestor db S) S db1 ops1 hrec
            hsigP hclP hgrP
        obtain ⟨hroles, hparents, _⟩ :=
          rebuildLoopFuel_frame (1001 - 0) (purgeByAncestor db S) S db1 ops1 hrec
        have hroles' : db1.roles = db.roles := hroles
        have hparents' : db1.parents = db.parents := hparents
        constructor
        · intro row hrow hanc
          obtain ⟨⟨r, hr, hrid, hcanon⟩, hreach, _⟩ := hsig' row hrow hanc
          exact ⟨⟨r, hroles' ▸ hr, hrid, hcanon⟩,
            reachable_of_parents_eq db1 db hparents' _ _ hreach⟩
        · intro x σ hσ hx hσr hreach
          have hFK1 : edgesFK db1 := by
            intro e he
            rw [hparents'] at he
            have := hFK e he
            rw [roleIds, hroles']
            exact this
          refine sigma_completeness S db1 hFK1 hcl' hgr' x σ hσ ?_
            (reachable_of_parents_eq db db1 hparents'.symm _ _ hreach) ?_
          · rw [roleIds, hroles']
            exact hσr
          · rw [roleIds, hroles']
            exact hx
    | error e =>
        rw [hrec] at hok
        cases hok

end AwxRbac

namespace AwxRbac

/-! ### Deterministic replay of the layer loop -/

/-- One full layer (`DELETE` then `INSERT`) as a state transformer. -/
def layerState (db : DBState) (F : List Nat) : DBState :=
  (layerInsert (layerDelete db F).1 F).1

/-- The `i`-th working set of the loop, as a pure iteration of the descent
query (which depends only on the constant `roles` and `parents` tables). -/
def iterFrontier (db : DBState) (S : List Nat) : Nat → List Nat
  | 0 => S
  | i + 1 => childrenOf db (iterFrontier db S i)

/-- The table state entering the `i`-th layer of the loop. -/
def runState (db : DBState) (S : List Nat) : Nat → DBState
  | 0 => db
  | i + 1 => layerState (runState db S i) (iterFrontier db S i)

/-- Number of layers recorded in a statement trace. -/
def layerCnt (ops : List SqlOp) : Nat :=
  ops.countP (fun op => match op with | .layerDeleteStmt _ _ => true | _ => false)

/-- The descent query depends only on the `roles` and `parents` tables. -/
theorem childrenOf_congr (dbA dbB : DBState) (hr : dbA.roles = dbB.roles)
    (hp : dbA.parents = dbB.parents) (F : List Nat) :
    childrenOf dbA F = childrenOf dbB F := by
  rw [childrenOf, childrenOf, hr, hp]

/-- A full layer only rewrites the `ancestors` table. -/
theorem layerState_frame (db : DBState) (F : List Nat) :
    (layerState db F).roles = db.roles ∧ (layerState db F).parents = db.parents ∧
      (layerState db F).members = db.members :=
  ⟨rfl, rfl, rfl⟩

/-- `runState` only rewrites the `ancestors` table. -/
theorem runState_frame (db : DBState) (S : List Nat) (i : Nat) :
    (runState db S i).roles = db.roles ∧ (runState db S i).parents = db.parents := by
  induction i with
  | zero => exact ⟨rfl, rfl⟩
  | succ n ih => exact ih

/-- The loop is the deterministic iteration of `layerState` along
`iterFrontier`, stopping after `layerCnt ops` layers; a committed run ends in
the corresponding `runState`, and its final layer either did no work at all or
produced an empty next frontier. -/
theorem rebuildLoopFuel_runState (fuel : Nat) :
    ∀ db S db' ops, rebuildLoopFuel fuel db S = .ok (db', ops) →
      db' = runState db S (layerCnt ops) ∧
      ((layerCnt ops = 0 ∧ S = [] ∧ db' = db) ∨
        (0 < layerCnt ops ∧
          ((layerInsert (layerDelete (runState db S (layerCnt ops - 1))
              (iterFrontier db S (layerCnt ops - 1))).1
              (iterFrontier db S (layerCnt ops - 1))).2 = 0 ∧
            (layerDelete (runState db S (layerCnt ops - 1))
              (iterFrontier db S (layerCnt ops - 1))).2 = 0 ∨
           iterFrontier db S (layerCnt ops) = []))) := by
  induction fuel with
  | zero =>
      intro db S db' ops hok
      rw [rebuildLoopFuel] at hok
      by_cases hempty : S.isEmpty
      · rw [if_pos hempty] at hok
        cases hok
        rw [List.isEmpty_iff] at hempty
        exact ⟨rfl, Or.inl ⟨rfl, hempty, rfl⟩⟩
      · rw [if_neg hempty] at hok
        cases hok
  | succ f ih =>
      intro db S db' ops hok
      rw [rebuildLoopFuel] at hok
      by_cases hempty : S.isEmpty
      · rw [if_pos hempty] at hok
        cases hok
        rw [List.isEmpty_iff] at hempty
        exact ⟨rfl, Or.inl ⟨rfl, hempty, rfl⟩⟩
      · rw [if_neg hempty] at hok
        by_cases hstop :
            (layerInsert (layerDelete db S).1 S).2 = 0 ∧ (layerDelete db S).2 = 0
        · rw [if_pos hstop] at hok
          cases hok
          refine ⟨?_, Or.inr ⟨?_, Or.inl ?_⟩⟩
          · show _ = runState db S (layerCnt [SqlOp.layerDeleteStmt S (layerDelete db S).2,
              SqlOp.layerInsertStmt S (layerInsert (layerDelete db S).1 S).2])
            rw [show layerCnt [SqlOp.layerDeleteStmt S (layerDelete db S).2,
              SqlOp.layerInsertStmt S (layerInsert (layerDelete db S).1 S).2] = 1 from rfl]
            rfl
          · rw [show layerCnt [SqlOp.layerDeleteStmt S (layerDelete db S).2,
              SqlOp.layerInsertStmt S (layerInsert (layerDelete db S).1 S).2] = 1 from rfl]
            exact Nat.one_pos
          · rw [show layerCnt [SqlOp.layerDeleteStmt S (layerDelete db S).2,
              SqlOp.layerInsertStmt S (layerInsert (layerDelete db S).1 S).2] = 1 from rfl]
            exact hstop
        · rw [if_neg hstop] at hok
          cases hrec : rebuildLoopFuel f (layerInsert (layerDelete db S).1 S).1
              (childrenOf (layerInsert (layerDelete db S).1 S).1 S) with
          | ok res =>
              obtain ⟨db2, ops2⟩ := res
              simp only [hrec] at hok
              injection hok with hpair
              injection hpair with hdb hops
              subst hdb
              subst hops
              obtain ⟨hstate, hshape⟩ := ih _ _ _ _ hrec
              have hchild : childrenOf (layerInsert (layerDelete db S).1 S).1 S =
                  childrenOf db S :=
                childrenOf_congr _ _ rfl rfl S
              have hcnt : layerCnt (SqlOp.layerDeleteStmt S (layerDelete db S).2 ::
                  SqlOp.layerInsertStmt S (layerInsert (layerDelete db S).1 S).2 ::
                  SqlOp.childrenStmt S (childrenOf (layerInsert (layerDelete db S).1 S).1 S) ::
                  ops2) = layerCnt ops2 + 1 := by
                simp [layerCnt, List.countP_cons]
              have hiterS : ∀ j, iterFrontier (layerInsert (layerDelete db S).1 S).1
                  (childrenOf (layerInsert (layerDelete db S).1 S).1 S) j =
                  iterFrontier db S (j + 1) := by
                intro j
                induction j with
                | zero =>
                    show childrenOf _ S = childrenOf db (iterFrontier db S 0)
                    rw [hchild]
                    rfl
                | succ n ihn =>
                    show childrenOf _ _ = childrenOf db (iterFrontier db S (n + 1))
                    rw [ihn]
                    exact childrenOf_congr _ _ rfl rfl _
              have hrunS : ∀ j, runState (layerInsert (layerDelete db S).1 S).1
                  (childrenOf (layerInsert (layerDelete db S).1 S).1 S) j =
                  runState db S (j + 1) := by
                intro j
                induction j with
                | zero => rfl
                | succ n ihn =>
                    show layerState _ _ = layerState (runState db S (n + 1))
                      (iterFrontier db S (n + 1))
                    rw [ihn, hiterS n]
              rw [hcnt]
              constructor
              · rw [hstate, hrunS]
              · right
                refine ⟨Nat.succ_pos _, ?_⟩
                rcases hshape with ⟨hc0, hS0, _⟩ | ⟨hpos, hlast⟩
                · rw [hc0] at hstate ⊢
                  simp only [Nat.add_sub_cancel, Nat.zero_add]
                  right
                  show iterFrontier db S 1 = []
                  show childrenOf db (iterFrontier db S 0) = []
                  show childrenOf db S = []
                  rw [← hchild]
                  exact hS0
                · rcases hlast with hzero | hemp
                  · left
                    have h1 : layerCnt ops2 + 1 - 1 = (layerCnt ops2 - 1) + 1 := by omega
                    rw [h1, ← hrunS, ← hiterS]
                    exact hzero
                  · right
                    have h1 : layerCnt ops2 + 1 = (layerCnt ops2) + 1 := rfl
                    rw [← hiterS]
                    exact hemp
          | error e =>
              simp only [hrec] at hok
              cases hok

end AwxRbac

namespace AwxRbac

/-! ### Per-node consistency of the rebuilt table (claim C7) -/

/-- The seed-column invariant holds at every stage of the replayed loop. -/
theorem runState_sigma (S : List Nat) (db : DBState) (S0 : List Nat)
    (hsig : sigmaState S db) : ∀ i, sigmaState S (runState db S0 i) := by
  intro i
  induction i with
  | zero => exact hsig
  | succ n ih => exact sigmaState_layer S (runState db S0 n) (iterFrontier db S0 n) ih

/-- Pair equality is reflexive. -/
theorem pairEq_refl (c : AncestorRow) : pairEq c c = true := by
  simp [pairEq]

/-- Matching pairs agree on the descendent column. -/
theorem pairEq_desc (c a : AncestorRow) (h : pairEq c a = true) :
    c.descendent_id = a.descendent_id := by
  simp only [pairEq, Bool.and_eq_true, beq_iff_eq] at h
  exact h.1

/-- Matching pairs agree on the ancestor column. -/
theorem pairEq_anc (c a : AncestorRow) (h : pairEq c a = true) :
    c.ancestor_id = a.ancestor_id := by
  simp only [pairEq, Bool.and_eq_true, beq_iff_eq] at h
  exact h.2

/-- A node's stored rows agree with its candidate query: every stored row
matches some candidate pair and every candidate pair is stored.  This is the
per-node postcondition a layer of the loop establishes. -/
def Consist (db : DBState) (d : Nat) : Prop :=
  (∀ row ∈ db.ancestors, row.descendent_id = d →
    ∃ c ∈ newAncestryList db [d], pairEq c row = true) ∧
  (∀ c ∈ newAncestryList db [d], ∃ row ∈ db.ancestors, pairEq c row = true)

/-- Restriction of the candidate query to one member of the working set. -/
theorem mem_cands_single_iff (db : DBState) (F : List Nat) (d : Nat) (hd : d ∈ F)
    (c : AncestorRow) :
    c ∈ newAncestryList db [d] ↔ c ∈ newAncestryList db F ∧ c.descendent_id = d := by
  rw [mem_newAncestryList_iff, mem_newAncestryList_iff]
  constructor
  · rintro (⟨e, he, hein, r, hr, hrid, a, ha, hadesc, rfl⟩ | ⟨r, hr, hrin, rfl⟩)
    · have he1 : e.1 = d := by simpa using hein
      refine ⟨Or.inl ⟨e, he, he1 ▸ hd, r, hr, hrid, a, ha, hadesc, rfl⟩, ?_⟩
      show r.id = d
      rw [hrid, he1]
    · have hr1 : r.id = d := by simpa using hrin
      exact ⟨Or.inr ⟨r, hr, hr1 ▸ hd, rfl⟩, by simpa [selfRow] using hr1⟩
  · rintro ⟨⟨e, he, hein, r, hr, hrid, a, ha, hadesc, rfl⟩ | ⟨r, hr, hrin, rfl⟩, hdesc⟩
    · have he1 : e.1 = d := by
        rw [← hrid]
        simpa [rowFor] using hdesc
      exact Or.inl ⟨e, he, by simp [he1], r, hr, hrid, a, ha, hadesc, rfl⟩
    · have hr1 : r.id = d := by simpa [selfRow] using hdesc
      exact Or.inr ⟨r, hr, by simp [hr1], rfl⟩

/-- The candidate query of a single node depends only on the roles, the edges
and the stored rows of the node's parents. -/
theorem mem_cands_at_of (dbA dbB : DBState) (d : Nat)
    (hr : dbA.roles = dbB.roles) (hp : dbA.parents = dbB.parents)
    (hrows : ∀ row : AncestorRow,
      (∃ p, (d, p) ∈ dbA.parents ∧ row.descendent_id = p) →
      row ∈ dbA.ancestors → row ∈ dbB.ancestors)
    (c : AncestorRow) (hc : c ∈ newAncestryList dbA [d]) :
    c ∈ newAncestryList dbB [d] := by
  rw [mem_newAncestryList_iff] at hc ⊢
  rcases hc with ⟨e, he, hein, r, hrr, hrid, a, ha, hadesc, rfl⟩ | ⟨r, hrr, hrin, rfl⟩
  · obtain ⟨e1, e2⟩ := e
    have he1 : e1 = d := by simpa using hein
    subst he1
    refine Or.inl ⟨(e1, e2), hp ▸ he, hein, r, hr ▸ hrr, hrid, a, ?_, hadesc, rfl⟩
    exact hrows a ⟨e2, he, by simpa using hadesc⟩ ha
  · exact Or.inr ⟨r, hr ▸ hrr, hrin, rfl⟩

/-- Two-sided version of `mem_cands_at_of`. -/
theorem mem_cands_at_congr (dbA dbB : DBState) (d : Nat)
    (hr : dbA.roles = dbB.roles) (hp : dbA.parents = dbB.parents)
    (hrows : ∀ row : AncestorRow,
      (∃ p, (d, p) ∈ dbA.parents ∧ row.descendent_id = p) →
      (row ∈ dbA.ancestors ↔ row ∈ dbB.ancestors))
    (c : AncestorRow) :
    c ∈ newAncestryList dbA [d] ↔ c ∈ newAncestryList dbB [d] := by
  constructor
  · exact mem_cands_at_of dbA dbB d hr hp
      (fun row hpar h => (hrows row hpar).mp h) c
  · refine mem_cands_at_of dbB dbA d hr.symm hp.symm ?_ c
    intro row hpar h
    refine (hrows row ?_).mpr h
    obtain ⟨p, hedge, hdesc⟩ := hpar
    exact ⟨p, hp ▸ hedge, hdesc⟩

/-- Every candidate pair of the layer `INSERT` is present afterwards. -/
theorem layerInsert_covers (db : DBState) (F : List Nat) (c : AncestorRow)
    (hc : c ∈ newAncestryList db F) :
    ∃ row ∈ (layerInsert db F).1.ancestors, pairEq c row = true := by
  by_cases h : ∃ a ∈ db.ancestors, pairEq c a = true
  · obtain ⟨a, ha, hpa⟩ := h
    exact ⟨a, mem_layerInsert_of_mem db F a ha, hpa⟩
  · refine ⟨c, (mem_layerInsert_iff db F c).mpr (Or.inr ⟨hc, ?_⟩), pairEq_refl c⟩
    intro a ha
    rw [Bool.eq_false_iff]
    intro hpa
    exact h ⟨a, ha, hpa⟩

/-- A layer does not touch rows of nodes outside the working set. -/
theorem layer_mem_notF (db : DBState) (F : List Nat) (row : AncestorRow)
    (hd : row.descendent_id ∉ F) :
    row ∈ (layerState db F).ancestors ↔ row ∈ db.ancestors := by
  constructor
  · intro h
    rcases (mem_layerInsert_iff _ F row).mp h with h1 | ⟨hc, _⟩
    · exact ((mem_layerDelete_iff db F row).mp h1).1
    · exact absurd (newAncestryList_desc_mem _ F row hc) hd
  · intro h
    exact mem_layerInsert_of_mem _ F row
      ((mem_layerDelete_iff db F row).mpr ⟨h, Or.inl hd⟩)

/-- A node with a parent in the working set is a member of the descent query
over the post-layer state (referential integrity supplies the parent role). -/
theorem child_of_parent_inF (db : DBState) (F : List Nat) (d p : Nat)
    (hFK : edgesFK db) (hedge : (d, p) ∈ db.parents) (hpF : p ∈ F) :
    d ∈ childrenOf (layerState db F) F := by
  have hprole : p ∈ roleIds db := (hFK (d, p) hedge).2
  obtain ⟨rp, hrp, hrpid⟩ := List.mem_map.mp hprole
  rw [mem_childrenOf_iff]
  refine ⟨rp, hrp, ?_, ?_⟩
  · rw [hrpid]
    exact hpF
  · show (d, rp.id) ∈ db.parents
    rw [hrpid]
    exact hedge

end AwxRbac

namespace AwxRbac

/-- A layer makes each member of the working set consistent, unless one of its
parents was also in the working set (so its candidate base may have changed),
in which case the node joins the next working set. -/
theorem consist_layer_inF (db : DBState) (F : List Nat) (d : Nat)
    (hFK : edgesFK db) (hd : d ∈ F) :
    Consist (layerState db F) d ∨ d ∈ childrenOf (layerState db F) F := by
  by_cases hpar : ∃ p, (d, p) ∈ db.parents ∧ p ∈ F
  · obtain ⟨p, hedge, hpF⟩ := hpar
    exact Or.inr (child_of_parent_inF db F d p hFK hedge hpF)
  · left
    push_neg at hpar
    have hrows : ∀ row : AncestorRow,
        (∃ p, (d, p) ∈ db.parents ∧ row.descendent_id = p) →
        (row ∈ db.ancestors ↔ row ∈ (layerState db F).ancestors) := by
      rintro row ⟨p, hedge, hdesc⟩
      exact (layer_mem_notF db F row (hdesc ▸ hpar p hedge)).symm
    have hcandsdb : ∀ c, c ∈ newAncestryList db [d] ↔
        c ∈ newAncestryList (layerState db F) [d] :=
      fun c => mem_cands_at_congr db (layerState db F) d rfl rfl hrows c
    have hrows1 : ∀ row : AncestorRow,
        (∃ p, (d, p) ∈ (layerDelete db F).1.parents ∧ row.descendent_id = p) →
        (row ∈ (layerDelete db F).1.ancestors ↔ row ∈ (layerState db F).ancestors) := by
      rintro row ⟨p, hedge, hdesc⟩
      have hnotF : row.descendent_id ∉ F := hdesc ▸ hpar p hedge
      constructor
      · intro h
        exact mem_layerInsert_of_mem _ F row h
      · intro h
        rcases (mem_layerInsert_iff _ F row).mp h with h1 | ⟨hc, _⟩
        · exact h1
        · exact absurd (newAncestryList_desc_mem _ F row hc) hnotF
    have hcands1 : ∀ c, c ∈ newAncestryList (layerDelete db F).1 [d] ↔
        c ∈ newAncestryList (layerState db F) [d] :=
      fun c => mem_cands_at_congr (layerDelete db F).1 (layerState db F) d rfl rfl hrows1 c
    constructor
    · intro row hrow hdesc
      rcases (mem_layerInsert_iff _ F row).mp hrow with h1 | ⟨hc, _⟩
      · rcases (mem_layerDelete_iff db F row).mp h1 with ⟨hmem, hkeep⟩
        rcases hkeep with hnot | ⟨c, hcF, hpc⟩
        · exact absurd (hdesc ▸ hd) hnot
        · have hcdesc : c.descendent_id = d := by
            rw [pairEq_desc c row hpc, hdesc]
          have hcd : c ∈ newAncestryList db [d] :=
            (mem_cands_single_iff db F d hd c).mpr ⟨hcF, hcdesc⟩
          exact ⟨c, (hcandsdb c).mp hcd, hpc⟩
      · have hcd : row ∈ newAncestryList (layerDelete db F).1 [d] :=
          (mem_cands_single_iff _ F d hd row).mpr ⟨hc, hdesc⟩
        exact ⟨row, (hcands1 row).mp hcd, pairEq_refl row⟩
    · intro c hc
      have hc1 : c ∈ newAncestryList (layerDelete db F).1 [d] := (hcands1 c).mpr hc
      have hcF : c ∈ newAncestryList (layerDelete db F).1 F :=
        ((mem_cands_single_iff _ F d hd c).mp hc1).1
      exact layerInsert_covers _ F c hcF

/-- A layer preserves the consistency of a node outside the working set, unless
one of its parents was in the working set, in which case the node joins the
next working set. -/
theorem consist_layer_notF (db : DBState) (F : List Nat) (d : Nat)
    (hFK : edgesFK db) (hd : d ∉ F) (hcon : Consist db d) :
    Consist (layerState db F) d ∨ d ∈ childrenOf (layerState db F) F := by
  by_cases hpar : ∃ p, (d, p) ∈ db.parents ∧ p ∈ F
  · obtain ⟨p, hedge, hpF⟩ := hpar
    exact Or.inr (child_of_parent_inF db F d p hFK hedge hpF)
  · left
    push_neg at hpar
    have hrows : ∀ row : AncestorRow,
        (∃ p, (d, p) ∈ db.parents ∧ row.descendent_id = p) →
        (row ∈ db.ancestors ↔ row ∈ (layerState db F).ancestors) := by
      rintro row ⟨p, hedge, hdesc⟩
      exact (layer_mem_notF db F row (hdesc ▸ hpar p hedge)).symm
    have hcandsdb : ∀ c, c ∈ newAncestryList db [d] ↔
        c ∈ newAncestryList (layerState db F) [d] :=
      fun c => mem_cands_at_congr db (layerState db F) d rfl rfl hrows c
    constructor
    · intro row hrow hdesc
      have hmem : row ∈ db.ancestors := (layer_mem_notF db F row (hdesc ▸ hd)).mp hrow
      obtain ⟨c, hc, hpc⟩ := hcon.1 row hmem hdesc
      exact ⟨c, (hcandsdb c).mp hc, hpc⟩
    · intro c hc
      have hc0 : c ∈ newAncestryList db [d] := (hcandsdb c).mpr hc
      obtain ⟨row, hrow, hpc⟩ := hcon.2 c hc0
      have hrdesc : row.descendent_id = d := by
        rw [← pairEq_desc c row hpc]
        have := newAncestryList_desc_mem db [d] c hc0
        simpa using this
      exact ⟨row, (layer_mem_notF db F row (hrdesc ▸ hd)).mpr hrow, hpc⟩

end AwxRbac

namespace AwxRbac

/-- Per-node consistency is carried through the layer loop.  A node of the
committed state is consistent unless it was excused at entry (`U`) and never
appeared in any executed working set. -/
theorem rebuildLoopFuel_consist (fuel : Nat) :
    ∀ db F db' ops (U : Nat → Prop), rebuildLoopFuel fuel db F = .ok (db', ops) →
      edgesFK db →
      (∀ d, Consist db d ∨ d ∈ F ∨ U d) →
      ∀ d, Consist db' d ∨ (U d ∧ ∀ i < layerCnt ops, d ∉ iterFrontier db F i) := by
  induction fuel with
  | zero =>
      intro db F db' ops U hok hFK hpre d
      rw [rebuildLoopFuel] at hok
      by_cases hempty : F.isEmpty
      · rw [if_pos hempty] at hok
        cases hok
        rw [List.isEmpty_iff] at hempty
        subst hempty
        rcases hpre d with h | h | h
        · exact Or.inl h
        · exact absurd h (List.not_mem_nil _)
        · refine Or.inr ⟨h, ?_⟩
          intro i hi
          simp [layerCnt] at hi
      · rw [if_neg hempty] at hok
        cases hok
  | succ f ih =>
      intro db F db' ops U hok hFK hpre d
      rw [rebuildLoopFuel] at hok
      by_cases hempty : F.isEmpty
      · rw [if_pos hempty] at hok
        cases hok
        rw [List.isEmpty_iff] at hempty
        subst hempty
        rcases hpre d with h | h | h
        · exact Or.inl h
        · exact absurd h (List.not_mem_nil _)
        · refine Or.inr ⟨h, ?_⟩
          intro i hi
          simp [layerCnt] at hi
      · rw [if_neg hempty] at hok
        by_cases hstop :
            (layerInsert (layerDelete db F).1 F).2 = 0 ∧ (layerDelete db F).2 = 0
        · rw [if_pos hstop] at hok
          cases hok
          have heq : (layerInsert (layerDelete db F).1 F).1 = db :=
            layer_zero_work_eq db F hstop
          rw [heq]
          have hdis : ∀ x ∈ F, Consist db x := by
            intro x hx
            have hd0 := layerDelete_zero_eq db F hstop.2
            have hi0 : (layerInsert db F).2 = 0 := by
              have h1 := hstop.1
              rw [hd0] at h1
              exact h1
            constructor
            · intro row hrow hdesc
              have hrow1 : row ∈ (layerDelete db F).1.ancestors := by
                rw [hd0]
                exact hrow
              rcases (mem_layerDelete_iff db F row).mp hrow1 with ⟨_, hkeep⟩
              rcases hkeep with hnot | ⟨c, hcF, hpc⟩
              · exact absurd (hdesc ▸ hx) hnot
              · have hcdesc : c.descendent_id = x := by
                  rw [pairEq_desc c row hpc, hdesc]
                exact ⟨c, (mem_cands_single_iff db F x hx c).mpr ⟨hcF, hcdesc⟩, hpc⟩
            · intro c hc
              have hcF : c ∈ newAncestryList db F :=
                ((mem_cands_single_iff db F x hx c).mp hc).1
              exact layerInsert_zero_all_present db F hi0 c hcF
          by_cases hdF : d ∈ F
          · exact Or.inl (hdis d hdF)
          · rcases hpre d with h | h | h
            · exact Or.inl h
            · exact absurd h hdF
            · refine Or.inr ⟨h, ?_⟩
              intro i hi
              have hcnt : layerCnt [SqlOp.layerDeleteStmt F (layerDelete db F).2,
                  SqlOp.layerInsertStmt F (layerInsert (layerDelete db F).1 F).2] = 1 := by
                simp [layerCnt, List.countP_cons]
              rw [hcnt] at hi
              interval_cases i
              exact hdF
        · rw [if_neg hstop] at hok
          cases hrec : rebuildLoopFuel f (layerInsert (layerDelete db F).1 F).1
              (childrenOf (layerInsert (layerDelete db F).1 F).1 F) with
          | ok res =>
              obtain ⟨db2, ops2⟩ := res
              simp only [hrec] at hok
              injection hok with hpair
              injection hpair with hdb hops
              subst hdb
              subst hops
              have hFK' : edgesFK (layerInsert (layerDelete db F).1 F).1 := hFK
              have hpre' : ∀ x, Consist (layerInsert (layerDelete db F).1 F).1 x ∨
                  x ∈ childrenOf (layerInsert (layerDelete db F).1 F).1 F ∨
                  (U x ∧ x ∉ F) := by
                intro x
                by_cases hxF : x ∈ F
                · rcases consist_layer_inF db F x hFK hxF with h | h
                  · exact Or.inl h
                  · exact Or.inr (Or.inl h)
                · rcases hpre x with h | h | h
                  · rcases consist_layer_notF db F x hFK hxF h with h' | h'
                    · exact Or.inl h'
                    · exact Or.inr (Or.inl h')
                  · exact absurd h hxF
                  · exact Or.inr (Or.inr ⟨h, hxF⟩)
              have hres := ih _ _ _ _ (fun x => U x ∧ x ∉ F) hrec hFK' hpre' d
              rcases hres with h | ⟨⟨hU, hdF⟩, hiter⟩
              · exact Or.inl h
              · refine Or.inr ⟨hU, ?_⟩
                intro i hi
                have hcnt : layerCnt (SqlOp.layerDeleteStmt F (layerDelete db F).2 ::
                    SqlOp.layerInsertStmt F (layerInsert (layerDelete db F).1 F).2 ::
                    SqlOp.childrenStmt F
                      (childrenOf (layerInsert (layerDelete db F).1 F).1 F) ::
                    ops2) = layerCnt ops2 + 1 := by
                  simp [layerCnt, List.countP_cons]
                rw [hcnt] at hi
                have hiterS : ∀ j, iterFrontier (layerInsert (layerDelete db F).1 F).1
                    (childrenOf (layerInsert (layerDelete db F).1 F).1 F) j =
                    iterFrontier db F (j + 1) := by
                  intro j
                  induction j with
                  | zero =>
                      show childrenOf _ F = childrenOf db (iterFrontier db F 0)
                      exact childrenOf_congr _ _ rfl rfl F
                  | succ n ihn =>
                      show childrenOf _ _ = childrenOf db (iterFrontier db F (n + 1))
                      rw [ihn]
                      exact childrenOf_congr _ _ rfl rfl _
                cases i with
                | zero => exact hdF
                | succ j =>
                    rw [← hiterS j]
                    exact hiter j (by omega)
          | error e =>
              simp only [hrec] at hok
              cases hok

/-- Every node visited by a committed rebuild — every member of every executed
working set — is consistent in the committed state: its stored rows and its
candidate query agree pair for pair. -/
theorem rebuild_consist (db : DBState) (S : List Nat) (db1 : DBState) (ops : List SqlOp)
    (hok : simultaneous_ancestry_rebuild db S = .ok (db1, ops)) (hFK : edgesFK db) :
    ∀ i < layerCnt ops, ∀ d ∈ iterFrontier db S i, Consist db1 d := by
  rw [simultaneous_ancestry_rebuild] at hok
  by_cases hlen : S.length = 0
  · rw [if_pos hlen] at hok
    cases hok
    intro i hi
    simp [layerCnt] at hi
  · rw [if_neg hlen] at hok
    cases hrec : rebuildLoop (purgeByAncestor db S) S 0 with
    | ok res =>
        obtain ⟨dbr, opsr⟩ := res
        rw [hrec] at hok
        injection hok with hpair
        injection hpair with hdb hops
        subst hdb
        subst hops
        have hFKP : edgesFK (purgeByAncestor db S) := hFK
        have hpre : ∀ d, Consist (purgeByAncestor db S) d ∨ d ∈ S ∨
            ¬ Consist (purgeByAncestor db S) d := by
          intro d
          rcases Classical.em (Consist (purgeByAncestor db S) d) with h | h
          · exact Or.inl h
          · exact Or.inr (Or.inr h)
        have hres := rebuildLoopFuel_consist (1001 - 0) (purgeByAncestor db S) S dbr opsr
          (fun d => ¬ Consist (purgeByAncestor db S) d) hrec hFKP hpre
        intro i hi d hd
        have hcnt : layerCnt (SqlOp.purgeStmt S :: opsr) = layerCnt opsr := by
          simp [layerCnt, List.countP_cons]
        rw [hcnt] at hi
        have hiterP : ∀ j, iterFrontier (purgeByAncestor db S) S j =
            iterFrontier db S j := by
          intro j
          induction j with
          | zero => rfl
          | succ n ihn =>
              show childrenOf _ _ = childrenOf db (iterFrontier db S n)
              rw [ihn]
              exact childrenOf_congr _ _ rfl rfl _
        rcases hres d with h | ⟨_, hnot⟩
        · exact h
        · exfalso
          refine hnot i hi ?_
          rw [hiterP i]
          exact hd
    | error e =>
        rw [hrec] at hok
        cases hok

end AwxRbac

namespace AwxRbac

/-! ### Lockstep comparison of a re-run with the first run (claim C7) -/

/-- A seed-column pair `(x, σ)` the layer `INSERT` can produce at working set
`F`: `x` is a processed role and the pair is a self pair or justified by a
parent's stored pair. -/
def sigmaCand (db : DBState) (F : List Nat) (x σ : Nat) : Prop :=
  x ∈ F ∧ x ∈ roleIds db ∧
    (x = σ ∨ ∃ p, (x, p) ∈ db.parents ∧ hasPair db p σ)

/-- Once the frontier excuses are discharged, every producible seed pair is
already present. -/
theorem sigmaCand_discharge (S : List Nat) (db : DBState) (F : List Nat) (x σ : Nat)
    (hσ : σ ∈ S) (hcl : sigmaClosed S db []) (hgr : sigmaGrounded S db [])
    (h : sigmaCand db F x σ) : hasPair db x σ := by
  obtain ⟨_, hxrole, hcase⟩ := h
  rcases hcase with hxs | ⟨p, hedge, hp⟩
  · subst hxs
    rcases hgr x hσ hxrole with h' | h'
    · exact h'
    · exact absurd h' (List.not_mem_nil _)
  · rcases hcl x p σ hσ hxrole hedge hp with h' | h'
    · exact h'
    · exact absurd h' (List.not_mem_nil _)

/-- Producible seed pairs depend only on the roles, the edges and the stored
seed pairs. -/
theorem sigmaCand_congr (dbA dbB : DBState) (F : List Nat) (x σ : Nat)
    (hr : dbA.roles = dbB.roles) (hp : dbA.parents = dbB.parents)
    (hpair : ∀ y, hasPair dbA y σ ↔ hasPair dbB y σ) :
    sigmaCand dbA F x σ ↔ sigmaCand dbB F x σ := by
  rw [sigmaCand, sigmaCand, roleIds, roleIds, hr, hp]
  constructor
  · rintro ⟨h1, h2, h3 | ⟨p, hedge, hpp⟩⟩
    · exact ⟨h1, h2, Or.inl h3⟩
    · exact ⟨h1, h2, Or.inr ⟨p, hedge, (hpair p).mp hpp⟩⟩
  · rintro ⟨h1, h2, h3 | ⟨p, hedge, hpp⟩⟩
    · exact ⟨h1, h2, Or.inl h3⟩
    · exact ⟨h1, h2, Or.inr ⟨p, hedge, (hpair p).mpr hpp⟩⟩

/-- Seed-column pairs after a full layer: the pairs already stored plus the
producible pairs of the working set. -/
theorem hasPair_layerState_iff (S : List Nat) (db : DBState) (F : List Nat)
    (hsig : sigmaState S db) (x σ : Nat) (hσ : σ ∈ S) :
    hasPair (layerState db F) x σ ↔ hasPair db x σ ∨ sigmaCand db F x σ := by
  constructor
  · rintro ⟨row, hrow, hd, ha⟩
    rcases (mem_layerInsert_iff _ F row).mp hrow with hold | ⟨hc, _⟩
    · exact Or.inl ⟨row, ((mem_layerDelete_iff db F row).mp hold).1, hd, ha⟩
    · right
      rw [mem_newAncestryList_iff] at hc
      rcases hc with ⟨e, he, hein, r, hr, hrid, a, hamem, hadesc, heq⟩ |
        ⟨r, hr, hrin, heq⟩
      · obtain ⟨e1, e2⟩ := e
        have hamem' : a ∈ db.ancestors :=
          ((mem_layerDelete_iff db F a).mp hamem).1
        have hdx : r.id = x := by
          rw [← hd, heq]
          rfl
        have haσ : a.ancestor_id = σ := by
          rw [← ha, heq]
          rfl
        have he' : (x, e2) ∈ db.parents := by
          have hrid' : r.id = e1 := hrid
          rw [← hdx, hrid']
          exact he
        refine ⟨?_, ?_, Or.inr ⟨e2, he', a, hamem', by simpa using hadesc, haσ⟩⟩
        · have : e1 ∈ F := hein
          rw [← hdx, hrid]
          exact this
        · exact List.mem_map.mpr ⟨r, hr, hdx⟩
      · have hdx : r.id = x := by
          rw [← hd, heq]
          rfl
        have hxσ : x = σ := by
          rw [← hd, ← ha, heq]
          rfl
        refine ⟨hdx ▸ hrin, List.mem_map.mpr ⟨r, hr, hdx⟩, Or.inl hxσ⟩
  · rintro (h | ⟨hxF, hxrole, hcase⟩)
    · exact hasPair_layerInsert _ F _ _
        (sigma_hasPair_layerDelete S db F hsig x σ hσ h)
    · obtain ⟨rx, hrx, hrxid⟩ := List.mem_map.mp hxrole
      rcases hcase with hxs | ⟨p, hedge, hp⟩
      · have hc : selfRow rx ∈ newAncestryList (layerDelete db F).1 F :=
          selfRow_mem_newAncestryList _ F rx hrx (hrxid ▸ hxF)
        obtain ⟨row, hrowmem, hpc⟩ := layerInsert_covers _ F _ hc
        refine ⟨row, hrowmem, ?_, ?_⟩
        · rw [← pairEq_desc _ _ hpc]
          exact hrxid
        · rw [← pairEq_anc _ _ hpc, ← hxs]
          exact hrxid
      · obtain ⟨a', ha', hpd', hpa'⟩ :=
          sigma_hasPair_layerDelete S db F hsig p σ hσ hp
        have hc : rowFor rx a'.ancestor_id ∈ newAncestryList (layerDelete db F).1 F := by
          refine (mem_newAncestryList_iff _ F _).mpr (Or.inl
            ⟨(x, p), hedge, hxF, rx, hrx, by simpa using hrxid, a', ha',
              by simpa using hpd', rfl⟩)
        obtain ⟨row, hrowmem, hpc⟩ := layerInsert_covers _ F _ hc
        refine ⟨row, hrowmem, ?_, ?_⟩
        · rw [← pairEq_desc _ _ hpc]
          exact hrxid
        · rw [← pairEq_anc _ _ hpc]
          exact hpa'

/-- The loop executes at most `fuel` layers. -/
theorem rebuildLoopFuel_layerCnt_le (fuel : Nat) :
    ∀ db F db' ops, rebuildLoopFuel fuel db F = .ok (db', ops) →
      layerCnt ops ≤ fuel := by
  induction fuel with
  | zero =>
      intro db F db' ops hok
      rw [rebuildLoopFuel] at hok
      by_cases hempty : F.isEmpty
      · rw [if_pos hempty] at hok
        cases hok
        simp [layerCnt]
      · rw [if_neg hempty] at hok
        cases hok
  | succ f ih =>
      intro db F db' ops hok
      rw [rebuildLoopFuel] at hok
      by_cases hempty : F.isEmpty
      · rw [if_pos hempty] at hok
        cases hok
        simp [layerCnt]
      · rw [if_neg hempty] at hok
        by_cases hstop :
            (layerInsert (layerDelete db F).1 F).2 = 0 ∧ (layerDelete db F).2 = 0
        · rw [if_pos hstop] at hok
          cases hok
          simp [layerCnt, List.countP_cons]
        · rw [if_neg hstop] at hok
          cases hrec : rebuildLoopFuel f (layerInsert (layerDelete db F).1 F).1
              (childrenOf (layerInsert (layerDelete db F).1 F).1 F) with
          | ok res =>
              obtain ⟨db2, ops2⟩ := res
              simp only [hrec] at hok
              injection hok with hpair
              injection hpair with hdb hops
              subst hdb
              subst hops
              have hle := ih _ _ _ _ hrec
              have hcnt : layerCnt (SqlOp.layerDeleteStmt F (layerDelete db F).2 ::
                  SqlOp.layerInsertStmt F (layerInsert (layerDelete db F).1 F).2 ::
                  SqlOp.childrenStmt F
                    (childrenOf (layerInsert (layerDelete db F).1 F).1 F) ::
                  ops2) = layerCnt ops2 + 1 := by
                simp [layerCnt, List.countP_cons]
              rw [hcnt]
              omega
          | error e =>
              simp only [hrec] at hok
              cases hok

end AwxRbac

namespace AwxRbac

/-- With duplicate-free role ids, two candidate rows with the same pair are the
same row (the denormalized columns come from the same role). -/
theorem newAncestryList_pair_unique (db : DBState) (ids : List Nat)
    (hnodup : (db.roles.map RoleRow.id).Nodup) (c1 c2 : AncestorRow)
    (h1 : c1 ∈ newAncestryList db ids) (h2 : c2 ∈ newAncestryList db ids)
    (hd : c1.descendent_id = c2.descendent_id)
    (ha : c1.ancestor_id = c2.ancestor_id) : c1 = c2 := by
  have hcanon : ∀ c ∈ newAncestryList db ids, ∃ r ∈ db.roles,
      r.id = c.descendent_id ∧ c = rowFor r c.ancestor_id := by
    intro c hc
    rcases (mem_newAncestryList_iff db ids c).mp hc with
      ⟨e, _, _, r, hr, hrid, a, _, _, heq⟩ | ⟨r, hr, _, heq⟩
    · exact ⟨r, hr, by rw [heq]; rfl, by rw [heq]; rfl⟩
    · exact ⟨r, hr, by rw [heq]; rfl, by rw [heq]; rfl⟩
  obtain ⟨r1, hr1, hid1, hc1⟩ := hcanon c1 h1
  obtain ⟨r2, hr2, hid2, hc2⟩ := hcanon c2 h2
  have hrr : r1 = r2 := role_id_inj db hnodup r1 r2 hr1 hr2 (by rw [hid1, hid2, hd])
  subst hrr
  rw [hc1, hc2, ha]

/-- A duplicate-free list whose members are pairwise equal has length at most
one. -/
theorem length_le_one_of_nodup_allEq {α : Type} (l : List α) (hnd : l.Nodup)
    (hall : ∀ a ∈ l, ∀ b ∈ l, a = b) : l.length ≤ 1 := by
  cases l with
  | nil => simp
  | cons x xs =>
      cases xs with
      | nil => simp
      | cons y ys =>
          exfalso
          have hxy : x = y := hall x (by simp) y (by simp)
          rw [List.nodup_cons] at hnd
          exact hnd.1 (by rw [hxy]; simp)

/-- Each seed pair occurs at most once in the table. -/
def sigmaUnique (S : List Nat) (db : DBState) : Prop :=
  ∀ x σ, σ ∈ S →
    db.ancestors.countP (fun ρ => ρ.descendent_id == x && ρ.ancestor_id == σ) ≤ 1

/-- One layer preserves seed-pair uniqueness: the `DELETE` only filters and the
`INSERT` adds at most one (absent) row per pair. -/
theorem sigmaUnique_layer (S : List Nat) (db : DBState) (F : List Nat)
    (hnodup : (db.roles.map RoleRow.id).Nodup) (hu : sigmaUnique S db) :
    sigmaUnique S (layerState db F) := by
  intro x σ hσ
  have hdeleq : (layerDelete db F).1.ancestors = db.ancestors.filter (fun a =>
      !(F.contains a.descendent_id) ||
        (newAncestryList db F).any (fun c => pairEq c a)) := rfl
  have hdel : (layerDelete db F).1.ancestors.countP
      (fun ρ => ρ.descendent_id == x && ρ.ancestor_id == σ) ≤
      db.ancestors.countP (fun ρ => ρ.descendent_id == x && ρ.ancestor_id == σ) := by
    rw [hdeleq]
    exact (List.filter_sublist _).countP_le _
  have hinseq : (layerState db F).ancestors =
      (layerDelete db F).1.ancestors ++
        (newAncestryList (layerDelete db F).1 F).filter (fun c =>
          !((layerDelete db F).1.ancestors.any (fun a => pairEq c a))) := rfl
  rw [hinseq, List.countP_append]
  by_cases hpos : 0 < (layerDelete db F).1.ancestors.countP
      (fun ρ => ρ.descendent_id == x && ρ.ancestor_id == σ)
  · have hmiss : ((newAncestryList (layerDelete db F).1 F).filter (fun c =>
        !((layerDelete db F).1.ancestors.any (fun a => pairEq c a)))).countP
        (fun ρ => ρ.descendent_id == x && ρ.ancestor_id == σ) = 0 := by
      rw [List.countP_eq_zero]
      intro c hc
      rw [List.mem_filter] at hc
      obtain ⟨ρ0, hρ0, hρ0p⟩ := List.countP_pos.mp hpos
      simp only [Bool.and_eq_true, beq_iff_eq] at hρ0p
      intro hcp
      simp only [Bool.and_eq_true, beq_iff_eq] at hcp
      have hany : (layerDelete db F).1.ancestors.any (fun a => pairEq c a) = true := by
        rw [List.any_eq_true]
        refine ⟨ρ0, hρ0, ?_⟩
        simp [pairEq, hcp.1, hcp.2, hρ0p.1, hρ0p.2]
      rw [hany] at hc
      simp at hc
    have hb := hu x σ hσ
    omega
  · have hzero : (layerDelete db F).1.ancestors.countP
        (fun ρ => ρ.descendent_id == x && ρ.ancestor_id == σ) = 0 := by omega
    rw [hzero, Nat.zero_add]
    set miss := (newAncestryList (layerDelete db F).1 F).filter (fun c =>
      !((layerDelete db F).1.ancestors.any (fun a => pairEq c a))) with hmissdef
    rw [List.countP_eq_length_filter]
    refine length_le_one_of_nodup_allEq _ ?_ ?_
    · refine List.Nodup.filter _ (List.Nodup.filter _ ?_)
      rw [newAncestryList]
      exact List.nodup_dedup _
    · intro a ha b hb
      rw [List.mem_filter] at ha hb
      have ha2 := ha.2
      have hb2 := hb.2
      simp only [Bool.and_eq_true, beq_iff_eq] at ha2 hb2
      have hac : a ∈ newAncestryList (layerDelete db F).1 F :=
        (List.mem_filter.mp ha.1).1
      have hbc : b ∈ newAncestryList (layerDelete db F).1 F :=
        (List.mem_filter.mp hb.1).1
      exact newAncestryList_pair_unique (layerDelete db F).1 F hnodup a b hac hbc
        (by rw [ha2.1, hb2.1]) (by rw [ha2.2, hb2.2])

/-- Seed-pair uniqueness is carried through the layer loop. -/
theorem rebuildLoopFuel_sigmaUnique (S : List Nat) (fuel : Nat) :
    ∀ db F db' ops, rebuildLoopFuel fuel db F = .ok (db', ops) →
      (db.roles.map RoleRow.id).Nodup → sigmaUnique S db → sigmaUnique S db' := by
  induction fuel with
  | zero =>
      intro db F db' ops hok hnodup hu
      rw [rebuildLoopFuel] at hok
      by_cases hempty : F.isEmpty
      · rw [if_pos hempty] at hok
        cases hok
        exact hu
      · rw [if_neg hempty] at hok
        cases hok
  | succ f ih =>
      intro db F db' ops hok hnodup hu
      rw [rebuildLoopFuel] at hok
      by_cases hempty : F.isEmpty
      · rw [if_pos hempty] at hok
        cases hok
        exact hu
      · rw [if_neg hempty] at hok
        by_cases hstop :
            (layerInsert (layerDelete db F).1 F).2 = 0 ∧ (layerDelete db F).2 = 0
        · rw [if_pos hstop] at hok
          cases hok
          exact sigmaUnique_layer S db F hnodup hu
        · rw [if_neg hstop] at hok
          cases hrec : rebuildLoopFuel f (layerInsert (layerDelete db F).1 F).1
              (childrenOf (layerInsert (layerDelete db F).1 F).1 F) with
          | ok res =>
              obtain ⟨db2, ops2⟩ := res
              simp only [hrec] at hok
              injection hok with hpair
              injection hpair with hdb hops
              subst hdb
              subst hops
              exact ih _ _ _ _ hrec hnodup (sigmaUnique_layer S db F hnodup hu)
          | error e =>
              simp only [hrec] at hok
              cases hok

end AwxRbac

namespace AwxRbac

/-- Once a state's frontier excuses are discharged, its seed pairs agree with
every later stage of the replayed first run: later layers can only produce
pairs that are producible from agreed pairs, and those are all present. -/
theorem sigma_stabilize (S : List Nat) (T1 : DBState) (st1 : Nat → DBState)
    (hst1step : ∀ j, st1 (j + 1) = layerState (st1 j) (iterFrontier T1 S j))
    (hst1sig : ∀ j, sigmaState S (st1 j))
    (hst1roles : ∀ j, (st1 j).roles = T1.roles)
    (hst1parents : ∀ j, (st1 j).parents = T1.parents)
    (cur : DBState) (hroles : cur.roles = T1.roles)
    (hparents : cur.parents = T1.parents)
    (hcl0 : sigmaClosed S cur []) (hgr0 : sigmaGrounded S cur [])
    (i : Nat) (hlock : ∀ x σ, σ ∈ S → (hasPair cur x σ ↔ hasPair (st1 i) x σ)) :
    ∀ j, i ≤ j → ∀ x σ, σ ∈ S → (hasPair cur x σ ↔ hasPair (st1 j) x σ) := by
  intro j hij
  induction j, hij using Nat.le_induction with
  | base => exact hlock
  | succ n hn ihn =>
      intro x σ hσ
      rw [hst1step n,
        hasPair_layerState_iff S (st1 n) (iterFrontier T1 S n) (hst1sig n) x σ hσ]
      constructor
      · intro h
        exact Or.inl ((ihn x σ hσ).mp h)
      · rintro (h | h)
        · exact (ihn x σ hσ).mpr h
        · have hcand : sigmaCand cur (iterFrontier T1 S n) x σ := by
            refine (sigmaCand_congr cur (st1 n) (iterFrontier T1 S n) x σ ?_ ?_ ?_).mpr h
            · rw [hroles, hst1roles n]
            · rw [hparents, hst1parents n]
            · intro y
              exact ihn y σ hσ
          exact sigmaCand_discharge S cur (iterFrontier T1 S n) x σ hσ hcl0 hgr0 hcand

end AwxRbac

namespace AwxRbac

/-- During a re-run over the committed state of a first run, the layer `DELETE`
removes nothing: seed rows are protected by their invariant witness and
non-seed rows of a visited node match a candidate because the first run left
that node consistent. -/
theorem run2_delete_keep (S : List Nat) (T1 cur : DBState) (F : List Nat)
    (hroles : cur.roles = T1.roles) (hparents : cur.parents = T1.parents)
    (hsig : sigmaState S cur)
    (hsub : ∀ ρ ∈ cur.ancestors, ρ.ancestor_id ∉ S → ρ ∈ T1.ancestors)
    (hrev : ∀ ρ ∈ T1.ancestors, ρ.ancestor_id ∉ S → ρ ∈ cur.ancestors)
    (hcons : ∀ d ∈ F, Consist T1 d) :
    (layerDelete cur F).1 = cur ∧ (layerDelete cur F).2 = 0 := by
  have hkeep : cur.ancestors.filter (fun a =>
      !(F.contains a.descendent_id) ||
        (newAncestryList cur F).any (fun c => pairEq c a)) = cur.ancestors := by
    rw [List.filter_eq_self]
    intro row hrow
    by_cases hdF : row.descendent_id ∈ F
    · rw [Bool.or_eq_true]
      right
      rw [List.any_eq_true]
      by_cases hanc : row.ancestor_id ∈ S
      · have hmem1 : row ∈ (layerDelete cur F).1.ancestors :=
          sigma_row_not_deleted S cur F hsig row hrow hanc
        have hmem2 : row ∈ cur.ancestors.filter (fun a =>
            !(F.contains a.descendent_id) ||
              (newAncestryList cur F).any (fun c => pairEq c a)) := hmem1
        have hpred := (List.mem_filter.mp hmem2).2
        rw [Bool.or_eq_true] at hpred
        rcases hpred with h | h
        · exfalso
          simp [List.elem_iff, hdF] at h
        · rwa [List.any_eq_true] at h
      · have hrowT1 : row ∈ T1.ancestors := hsub row hrow hanc
        obtain ⟨c, hcT1, hpc⟩ := (hcons _ hdF).1 row hrowT1 rfl
        have hcanc : c.ancestor_id ∉ S := by
          rw [pairEq_anc c row hpc]
          exact hanc
        rw [mem_newAncestryList_iff] at hcT1
        rcases hcT1 with ⟨e, he, hein, r, hr, hrid, a, haT1, hadesc, heq⟩ |
          ⟨r, hr, hrin, heq⟩
        · obtain ⟨e1, e2⟩ := e
          have he1 : e1 = row.descendent_id := by simpa using hein
          have haanc : a.ancestor_id ∉ S := by
            have hca : c.ancestor_id = a.ancestor_id := by rw [heq]; rfl
            rwa [hca] at hcanc
          have hacur : a ∈ cur.ancestors := hrev a haT1 haanc
          refine ⟨c, (mem_newAncestryList_iff cur F c).mpr (Or.inl
            ⟨(e1, e2), ?_, ?_, r, ?_, hrid, a, hacur, hadesc, heq⟩), hpc⟩
          · rw [hparents]
            exact he
          · show e1 ∈ F
            rw [he1]
            exact hdF
          · rw [hroles]
            exact hr
        · have hrid2 : r.id = row.descendent_id := by
            have hcd : c.descendent_id = r.id := by rw [heq]; rfl
            rw [← hcd, pairEq_desc c row hpc]
          refine ⟨c, (mem_newAncestryList_iff cur F c).mpr (Or.inr
            ⟨r, ?_, ?_, heq⟩), hpc⟩
          · rw [hroles]
            exact hr
          · rw [hrid2]
            exact hdF
    · rw [Bool.or_eq_true]
      left
      simp [List.elem_iff, hdF]
  constructor
  · show ({ cur with ancestors := cur.ancestors.filter _ } : DBState) = cur
    rw [hkeep]
  · show cur.ancestors.length - (cur.ancestors.filter _).length = 0
    rw [hkeep]
    omega

/-- During a re-run, a candidate whose pair is absent is a seed row of the
first run's committed state: the first run's consistency at the visited node
rules out non-seed pairs, and its closure and canonicality pin the row. -/
theorem run2_missing_sigma (S : List Nat) (T1 cur : DBState) (F : List Nat)
    (hnodup : (T1.roles.map RoleRow.id).Nodup)
    (hroles : cur.roles = T1.roles) (hparents : cur.parents = T1.parents)
    (hsigT1 : sigmaState S T1) (hclT1 : sigmaClosed S T1 [])
    (hgrT1 : sigmaGrounded S T1 [])
    (hsuball : ∀ ρ ∈ cur.ancestors, ρ ∈ T1.ancestors)
    (hrev : ∀ ρ ∈ T1.ancestors, ρ.ancestor_id ∉ S → ρ ∈ cur.ancestors)
    (hcons : ∀ d ∈ F, Consist T1 d)
    (c : AncestorRow) (hcand : c ∈ newAncestryList cur F)
    (habs : ∀ a ∈ cur.ancestors, pairEq c a = false) :
    c.ancestor_id ∈ S ∧ c ∈ T1.ancestors := by
  rw [mem_newAncestryList_iff] at hcand
  rcases hcand with ⟨e, he, hein, r, hr, hrid, a, hacur, hadesc, heq⟩ |
    ⟨r, hr, hrin, heq⟩
  · obtain ⟨e1, e2⟩ := e
    have hrT1 : r ∈ T1.roles := by rw [← hroles]; exact hr
    have he1F : e1 ∈ F := hein
    have hanc : c.ancestor_id = a.ancestor_id := by rw [heq]; rfl
    have heT1 : (e1, e2) ∈ T1.parents := by rw [← hparents]; exact he
    have hrid' : r.id = e1 := hrid
    have hσ : c.ancestor_id ∈ S := by
      by_contra hno
      have haT1 : a ∈ T1.ancestors := hsuball a hacur
      have hcT1 : c ∈ newAncestryList T1 [r.id] := by
        refine (mem_newAncestryList_iff T1 [r.id] c).mpr (Or.inl
          ⟨(e1, e2), heT1, ?_, r, hrT1, hrid, a, haT1, hadesc, heq⟩)
        simp [hrid']
      have hdF : r.id ∈ F := by rw [hrid']; exact he1F
      obtain ⟨row, hrowT1, hpc⟩ := (hcons _ hdF).2 c hcT1
      have hrowanc : row.ancestor_id ∉ S := by
        rw [← pairEq_anc c row hpc]
        exact hno
      have hrowcur : row ∈ cur.ancestors := hrev row hrowT1 hrowanc
      rw [habs row hrowcur] at hpc
      cases hpc
    refine ⟨hσ, ?_⟩
    have hpT1 : hasPair T1 e2 c.ancestor_id := by
      refine ⟨a, hsuball a hacur, ?_, hanc.symm⟩
      simpa using hadesc
    have hxrole : r.id ∈ roleIds T1 := List.mem_map.mpr ⟨r, hrT1, rfl⟩
    have hedge : (r.id, e2) ∈ T1.parents := by rw [hrid']; exact heT1
    have hpair : hasPair T1 r.id c.ancestor_id := by
      rcases hclT1 r.id e2 c.ancestor_id hσ hxrole hedge hpT1 with h | h
      · exact h
      · exact absurd h (List.not_mem_nil _)
    obtain ⟨row', hrow'T1, hd', ha'⟩ := hpair
    obtain ⟨⟨r', hr', hr'id, hcanon⟩, -, -⟩ := hsigT1 row' hrow'T1 (ha' ▸ hσ)
    have hrr : r' = r := role_id_inj T1 hnodup r' r hr' hrT1 (by rw [hr'id, hd'])
    subst hrr
    have hceq : c = rowFor r' c.ancestor_id := by
      rw [heq]
      rfl
    have hrow'c : row' = c := by
      rw [hcanon, ha', ← hceq]
    exact hrow'c ▸ hrow'T1
  · have hrT1 : r ∈ T1.roles := by rw [← hroles]; exact hr
    have hanc : c.ancestor_id = r.id := by rw [heq]; rfl
    have hσ : c.ancestor_id ∈ S := by
      by_contra hno
      have hcT1 : c ∈ newAncestryList T1 [r.id] := by
        rw [heq]
        exact selfRow_mem_newAncestryList T1 [r.id] r hrT1 (by simp)
      obtain ⟨row, hrowT1, hpc⟩ := (hcons _ hrin).2 c hcT1
      have hrowanc : row.ancestor_id ∉ S := by
        rw [← pairEq_anc c row hpc]
        exact hno
      have hrowcur : row ∈ cur.ancestors := hrev row hrowT1 hrowanc
      rw [habs row hrowcur] at hpc
      cases hpc
    refine ⟨hσ, ?_⟩
    have hxrole : r.id ∈ roleIds T1 := List.mem_map.mpr ⟨r, hrT1, rfl⟩
    have hpair : hasPair T1 r.id r.id := by
      rcases hgrT1 r.id (by rw [← hanc]; exact hσ) hxrole with h | h
      · exact h
      · exact absurd h (List.not_mem_nil _)
    obtain ⟨row', hrow'T1, hd', ha'⟩ := hpair
    obtain ⟨⟨r', hr', hr'id, hcanon⟩, -, -⟩ :=
      hsigT1 row' hrow'T1 (by rw [ha', ← hanc]; exact hσ)
    have hrr : r' = r := role_id_inj T1 hnodup r' r hr' hrT1 (by rw [hr'id, hd'])
    subst hrr
    have hrow'c : row' = c := by
      rw [hcanon, ha', heq]
      rfl
    exact hrow'c ▸ hrow'T1

/-- Every candidate row is a producible seed-column pair of its own state. -/
theorem cand_to_sigmaCand (cur : DBState) (F : List Nat) (c : AncestorRow)
    (hcand : c ∈ newAncestryList cur F) :
    sigmaCand cur F c.descendent_id c.ancestor_id := by
  rw [mem_newAncestryList_iff] at hcand
  rcases hcand with ⟨e, he, hein, r, hr, hrid, a, hacur, hadesc, heq⟩ |
    ⟨r, hr, hrin, heq⟩
  · obtain ⟨e1, e2⟩ := e
    have hdesc : c.descendent_id = r.id := by rw [heq]; rfl
    have hanc : c.ancestor_id = a.ancestor_id := by rw [heq]; rfl
    refine ⟨?_, ?_, Or.inr ⟨e2, ?_, a, hacur, ?_, hanc.symm⟩⟩
    · rw [hdesc, hrid]
      exact hein
    · exact List.mem_map.mpr ⟨r, hr, hdesc.symm⟩
    · show (c.descendent_id, e2) ∈ cur.parents
      rw [hdesc, hrid]
      exact he
    · simpa using hadesc
  · have hdesc : c.descendent_id = r.id := by rw [heq]; rfl
    have hanc : c.ancestor_id = r.id := by rw [heq]; rfl
    refine ⟨?_, ?_, Or.inl ?_⟩
    · rw [hdesc]
      exact hrin
    · exact List.mem_map.mpr ⟨r, hr, hdesc.symm⟩
    · rw [hdesc, hanc]

end AwxRbac

namespace AwxRbac

/-- Re-running the layer loop over the committed state of a first run: the loop
commits, never deletes, only restores purged seed rows of the first run, and
ends with the seed pairs of the first run's result.  `st1` replays the first
run's states; `cnt` is its executed layer count. -/
theorem run2_loop (S : List Nat) (T1 : DBState) (cnt : Nat) (st1 : Nat → DBState)
    (hnodup : (T1.roles.map RoleRow.id).Nodup)
    (hsigT1 : sigmaState S T1)
    (hclT1 : sigmaClosed S T1 [])
    (hgrT1 : sigmaGrounded S T1 [])
    (hconsT1 : ∀ i, i < cnt → ∀ d ∈ iterFrontier T1 S i, Consist T1 d)
    (hst1step : ∀ j, st1 (j + 1) = layerState (st1 j) (iterFrontier T1 S j))
    (hst1sig : ∀ j, sigmaState S (st1 j))
    (hst1roles : ∀ j, (st1 j).roles = T1.roles)
    (hst1parents : ∀ j, (st1 j).parents = T1.parents)
    (hT1fin : st1 cnt = T1)
    (hstop1 : 0 < cnt → st1 cnt = st1 (cnt - 1) ∨ iterFrontier T1 S cnt = []) :
    ∀ fuel i cur, cnt ≤ fuel + i → i ≤ cnt →
      (iterFrontier T1 S i ≠ [] → i < cnt) →
      cur.roles = T1.roles → cur.parents = T1.parents →
      sigmaState S cur →
      sigmaClosed S cur (iterFrontier T1 S i) →
      sigmaGrounded S cur (iterFrontier T1 S i) →
      (∃ R, cur.ancestors = (purgeByAncestor T1 S).ancestors ++ R ∧
        ∀ ρ ∈ R, ρ.ancestor_id ∈ S ∧ ρ ∈ T1.ancestors) →
      (∀ x σ, σ ∈ S → (hasPair cur x σ ↔ hasPair (st1 i) x σ)) →
      ∃ db2 ops2,
        rebuildLoopFuel fuel cur (iterFrontier T1 S i) = .ok (db2, ops2) ∧
        (∃ R2, db2.ancestors = (purgeByAncestor T1 S).ancestors ++ R2 ∧
          ∀ ρ ∈ R2, ρ.ancestor_id ∈ S ∧ ρ ∈ T1.ancestors) ∧
        (∀ x σ, σ ∈ S → (hasPair db2 x σ ↔ hasPair T1 x σ)) := by
  intro fuel
  induction fuel with
  | zero =>
      intro i cur hfuel hi hiF hroles hparents hsig hcl hgr hsplit hlock
      by_cases hFnil : iterFrontier T1 S i = []
      · refine ⟨cur, [], ?_, hsplit, ?_⟩
        · rw [rebuildLoopFuel]
          rw [if_pos (by rw [hFnil]; rfl)]
        · rw [hFnil] at hcl hgr
          intro x σ hσ
          rw [← hT1fin]
          exact sigma_stabilize S T1 st1 hst1step hst1sig hst1roles hst1parents cur
            hroles hparents hcl hgr i hlock cnt hi x σ hσ
      · exact absurd (hiF hFnil) (by omega)
  | succ f ih =>
      intro i cur hfuel hi hiF hroles hparents hsig hcl hgr hsplit hlock
      by_cases hFnil : iterFrontier T1 S i = []
      · refine ⟨cur, [], ?_, hsplit, ?_⟩
        · rw [rebuildLoopFuel]
          rw [if_pos (by rw [hFnil]; rfl)]
        · rw [hFnil] at hcl hgr
          intro x σ hσ
          rw [← hT1fin]
          exact sigma_stabilize S T1 st1 hst1step hst1sig hst1roles hst1parents cur
            hroles hparents hcl hgr i hlock cnt hi x σ hσ
      · have hicnt : i < cnt := hiF hFnil
        obtain ⟨R, hRsplit, hRfacts⟩ := hsplit
        have hsub : ∀ ρ ∈ cur.ancestors, ρ.ancestor_id ∉ S → ρ ∈ T1.ancestors := by
          intro ρ hρ hρS
          rw [hRsplit] at hρ
          rcases List.mem_append.mp hρ with h | h
          · exact ((mem_purgeByAncestor T1 S ρ).mp h).1
          · exact (hRfacts ρ h).2
        have hsuball : ∀ ρ ∈ cur.ancestors, ρ ∈ T1.ancestors := by
          intro ρ hρ
          rw [hRsplit] at hρ
          rcases List.mem_append.mp hρ with h | h
          · exact ((mem_purgeByAncestor T1 S ρ).mp h).1
          · exact (hRfacts ρ h).2
        have hrev : ∀ ρ ∈ T1.ancestors, ρ.ancestor_id ∉ S → ρ ∈ cur.ancestors := by
          intro ρ hρ hρS
          rw [hRsplit]
          exact List.mem_append.mpr (Or.inl
            ((mem_purgeByAncestor T1 S ρ).mpr ⟨hρ, hρS⟩))
        have hcons : ∀ d ∈ iterFrontier T1 S i, Consist T1 d := hconsT1 i hicnt
        obtain ⟨hdel1, hdelcnt⟩ := run2_delete_keep S T1 cur (iterFrontier T1 S i)
          hroles hparents hsig hsub hrev hcons
        have hinseq : (layerInsert (layerDelete cur (iterFrontier T1 S i)).1
            (iterFrontier T1 S i)).2 =
            ((newAncestryList cur (iterFrontier T1 S i)).filter
              (fun c => !(cur.ancestors.any (fun a => pairEq c a)))).length := by
          rw [hdel1]
          rfl
        have hinsanc : (layerInsert (layerDelete cur (iterFrontier T1 S i)).1
            (iterFrontier T1 S i)).1.ancestors = cur.ancestors ++
            ((newAncestryList cur (iterFrontier T1 S i)).filter
              (fun c => !(cur.ancestors.any (fun a => pairEq c a)))) := by
          rw [hdel1]
          rfl
        have hmissσ : ∀ c ∈ (newAncestryList cur (iterFrontier T1 S i)).filter
            (fun c => !(cur.ancestors.any (fun a => pairEq c a))),
            c.ancestor_id ∈ S ∧ c ∈ T1.ancestors := by
          intro c hc
          rw [List.mem_filter] at hc
          refine run2_missing_sigma S T1 cur (iterFrontier T1 S i) hnodup hroles
            hparents hsigT1 hclT1 hgrT1 hsuball hrev hcons c hc.1 ?_
          intro a ha
          have h2 := hc.2
          rw [Bool.not_eq_true', List.any_eq_false] at h2
          exact Bool.eq_false_iff.mpr (h2 a ha)
        by_cases hstop : (layerInsert (layerDelete cur (iterFrontier T1 S i)).1
            (iterFrontier T1 S i)).2 = 0 ∧
            (layerDelete cur (iterFrontier T1 S i)).2 = 0
        · have hcureq : (layerInsert (layerDelete cur (iterFrontier T1 S i)).1
              (iterFrontier T1 S i)).1 = cur := layer_zero_work_eq cur _ hstop
          refine ⟨(layerInsert (layerDelete cur (iterFrontier T1 S i)).1
              (iterFrontier T1 S i)).1,
            [SqlOp.layerDeleteStmt (iterFrontier T1 S i)
                (layerDelete cur (iterFrontier T1 S i)).2,
              SqlOp.layerInsertStmt (iterFrontier T1 S i)
                (layerInsert (layerDelete cur (iterFrontier T1 S i)).1
                  (iterFrontier T1 S i)).2], ?_, ?_, ?_⟩
          · rw [rebuildLoopFuel]
            rw [if_neg (by simpa [List.isEmpty_iff] using hFnil)]
            rw [if_pos hstop]
          · rw [hcureq]
            exact ⟨R, hRsplit, hRfacts⟩
          · rw [hcureq]
            obtain ⟨hcl0, hgr0⟩ := sigma_discharge_zero S cur _ hcl hgr hstop
            intro x σ hσ
            rw [← hT1fin]
            exact sigma_stabilize S T1 st1 hst1step hst1sig hst1roles hst1parents cur
              hroles hparents hcl0 hgr0 i hlock cnt hi x σ hσ
        · have hmissne : ((newAncestryList cur (iterFrontier T1 S i)).filter
              (fun c => !(cur.ancestors.any (fun a => pairEq c a)))) ≠ [] := by
            intro hnil
            exact hstop ⟨by rw [hinseq, hnil]; rfl, hdelcnt⟩
          have hchild : childrenOf (layerInsert (layerDelete cur
              (iterFrontier T1 S i)).1 (iterFrontier T1 S i)).1
              (iterFrontier T1 S i) = iterFrontier T1 S (i + 1) := by
            show _ = childrenOf T1 (iterFrontier T1 S i)
            exact childrenOf_congr _ T1 hroles hparents _
          have hiF' : iterFrontier T1 S (i + 1) ≠ [] → i + 1 < cnt := by
            intro hne
            by_contra hcon
            have hieq : i + 1 = cnt := by omega
            rcases hstop1 (by omega) with hzw | hfe
            · obtain ⟨c, hcmiss⟩ := List.exists_mem_of_ne_nil _ hmissne
              rw [List.mem_filter] at hcmiss
              have hcand := hcmiss.1
              have habs : ∀ a ∈ cur.ancestors, pairEq c a = false := by
                intro a ha
                have h2 := hcmiss.2
                rw [Bool.not_eq_true', List.any_eq_false] at h2
                exact Bool.eq_false_iff.mpr (h2 a ha)
              have hσ : c.ancestor_id ∈ S :=
                (run2_missing_sigma S T1 cur _ hnodup hroles hparents hsigT1 hclT1
                  hgrT1 hsuball hrev hcons c hcand habs).1
              have hsc : sigmaCand cur (iterFrontier T1 S i)
                  c.descendent_id c.ancestor_id :=
                cand_to_sigmaCand cur _ c hcand
              have hsc1 : sigmaCand (st1 i) (iterFrontier T1 S i)
                  c.descendent_id c.ancestor_id := by
                refine (sigmaCand_congr cur (st1 i) _ _ _ ?_ ?_ ?_).mp hsc
                · rw [hroles, hst1roles i]
                · rw [hparents, hst1parents i]
                · intro y
                  exact hlock y c.ancestor_id hσ
              have hp1 : hasPair (st1 (i + 1)) c.descendent_id c.ancestor_id := by
                rw [hst1step i]
                exact (hasPair_layerState_iff S (st1 i) _ (hst1sig i) _ _ hσ).mpr
                  (Or.inr hsc1)
              have hst1eq : st1 (i + 1) = st1 i := by
                rw [hieq, hzw]
                congr 1
                omega
              rw [hst1eq] at hp1
              obtain ⟨row, hrowcur, hrd, hra⟩ := (hlock _ _ hσ).mpr hp1
              have hpceq : pairEq c row = true := by simp [pairEq, hrd, hra]
              rw [habs row hrowcur] at hpceq
              cases hpceq
            · rw [hieq] at hne
              exact hne hfe
          have hsig' : sigmaState S (layerInsert (layerDelete cur
              (iterFrontier T1 S i)).1 (iterFrontier T1 S i)).1 :=
            sigmaState_layer S cur _ hsig
          have hcl' : sigmaClosed S (layerInsert (layerDelete cur
              (iterFrontier T1 S i)).1 (iterFrontier T1 S i)).1
              (iterFrontier T1 S (i + 1)) := by
            have h0 := sigmaClosed_layer S cur (iterFrontier T1 S i) hsig hcl
            rwa [hchild] at h0
          have hgr' : sigmaGrounded S (layerInsert (layerDelete cur
              (iterFrontier T1 S i)).1 (iterFrontier T1 S i)).1
              (iterFrontier T1 S (i + 1)) :=
            sigmaGrounded_layer S cur _ hsig hgr _
          have hsplit' : ∃ R', (layerInsert (layerDelete cur
              (iterFrontier T1 S i)).1 (iterFrontier T1 S i)).1.ancestors =
              (purgeByAncestor T1 S).ancestors ++ R' ∧
              ∀ ρ ∈ R', ρ.ancestor_id ∈ S ∧ ρ ∈ T1.ancestors := by
            refine ⟨R ++ ((newAncestryList cur (iterFrontier T1 S i)).filter
              (fun c => !(cur.ancestors.any (fun a => pairEq c a)))), ?_, ?_⟩
            · rw [hinsanc, hRsplit, List.append_assoc]
            · intro ρ hρ
              rcases List.mem_append.mp hρ with h | h
              · exact hRfacts ρ h
              · exact hmissσ ρ h
          have hlock' : ∀ x σ, σ ∈ S →
              (hasPair (layerInsert (layerDelete cur (iterFrontier T1 S i)).1
                (iterFrontier T1 S i)).1 x σ ↔ hasPair (st1 (i + 1)) x σ) := by
            intro x σ hσ
            rw [hst1step i]
            rw [show (layerInsert (layerDelete cur (iterFrontier T1 S i)).1
              (iterFrontier T1 S i)).1 = layerState cur (iterFrontier T1 S i) from rfl]
            rw [hasPair_layerState_iff S cur _ hsig x σ hσ,
              hasPair_layerState_iff S (st1 i) _ (hst1sig i) x σ hσ]
            constructor
            · rintro (h | h)
              · exact Or.inl ((hlock x σ hσ).mp h)
              · refine Or.inr ((sigmaCand_congr cur (st1 i) _ _ _ ?_ ?_ ?_).mp h)
                · rw [hroles, hst1roles i]
                · rw [hparents, hst1parents i]
                · intro y
                  exact hlock y σ hσ
            · rintro (h | h)
              · exact Or.inl ((hlock x σ hσ).mpr h)
              · refine Or.inr ((sigmaCand_congr cur (st1 i) _ _ _ ?_ ?_ ?_).mpr h)
                · rw [hroles, hst1roles i]
                · rw [hparents, hst1parents i]
                · intro y
                  exact hlock y σ hσ
          obtain ⟨db2, ops2, hok2, hsplit2, hfin2⟩ := ih (i + 1)
            (layerInsert (layerDelete cur (iterFrontier T1 S i)).1
              (iterFrontier T1 S i)).1
            (by omega) (by omega) hiF' hroles hparents hsig' hcl' hgr' hsplit' hlock'
          refine ⟨db2, SqlOp.layerDeleteStmt (iterFrontier T1 S i)
              (layerDelete cur (iterFrontier T1 S i)).2 ::
            SqlOp.layerInsertStmt (iterFrontier T1 S i)
              (layerInsert (layerDelete cur (iterFrontier T1 S i)).1
                (iterFrontier T1 S i)).2 ::
            SqlOp.childrenStmt (iterFrontier T1 S i)
              (childrenOf (layerInsert (layerDelete cur (iterFrontier T1 S i)).1
                (iterFrontier T1 S i)).1 (iterFrontier T1 S i)) :: ops2,
            ?_, hsplit2, hfin2⟩
          rw [rebuildLoopFuel]
          rw [if_neg (by simpa [List.isEmpty_iff] using hFnil)]
          rw [if_neg hstop]
          have hok2' := hok2
          rw [← hchild] at hok2'
          simp only [hok2']

end AwxRbac

namespace AwxRbac

/-- The frontier iteration depends only on the roles and edges. -/
theorem iterFrontier_congr (dbA dbB : DBState) (hr : dbA.roles = dbB.roles)
    (hp : dbA.parents = dbB.parents) (S : List Nat) :
    ∀ j, iterFrontier dbA S j = iterFrontier dbB S j := by
  intro j
  induction j with
  | zero => rfl
  | succ n ihn =>
      show childrenOf dbA _ = childrenOf dbB _
      rw [ihn]
      exact childrenOf_congr _ _ hr hp _

/-- A list of seed rows counted within a seed-pair-unique table is
duplicate-free. -/
theorem sigma_rows_nodup (S : List Nat) (db : DBState) (hu : sigmaUnique S db)
    (L : List AncestorRow) (hcount : ∀ ρ, L.count ρ ≤ db.ancestors.count ρ)
    (hσ : ∀ ρ ∈ L, ρ.ancestor_id ∈ S) : L.Nodup := by
  rw [List.nodup_iff_count_le_one]
  intro ρ
  by_cases hρ : ρ ∈ L
  · have h1 : db.ancestors.count ρ ≤ db.ancestors.countP
        (fun a => a.descendent_id == ρ.descendent_id &&
          a.ancestor_id == ρ.ancestor_id) := by
      rw [List.count_eq_countP]
      refine List.countP_mono_left ?_
      intro a ha hba
      have haρ : a = ρ := by simpa using hba
      subst haρ
      simp
    have h2 := hu ρ.descendent_id ρ.ancestor_id (hσ ρ hρ)
    have h0 := hcount ρ
    omega
  · have h0 : L.count ρ = 0 := List.count_eq_zero.mpr hρ
    omega

end AwxRbac

namespace AwxRbac

/-- Two distinct list members cannot both satisfy a predicate that holds at
most once. -/
theorem eq_of_countP_le_one (l : List AncestorRow) (p : AncestorRow → Bool)
    (h1 : l.countP p ≤ 1) (a b : AncestorRow) (ha : a ∈ l) (hb : b ∈ l)
    (hpa : p a = true) (hpb : p b = true) : a = b := by
  rw [List.countP_eq_length_filter] at h1
  have ha' : a ∈ l.filter p := List.mem_filter.mpr ⟨ha, hpa⟩
  have hb' : b ∈ l.filter p := List.mem_filter.mpr ⟨hb, hpb⟩
  cases hfl : l.filter p with
  | nil =>
      rw [hfl] at ha'
      cases ha'
  | cons x xs =>
      cases xs with
      | nil =>
          rw [hfl] at ha' hb'
          simp at ha' hb'
          rw [ha', hb']
      | cons y ys =>
          rw [hfl] at h1
          simp at h1

/-- C7: Idempotence of the rebuild over a store satisfying the schema
constraints (unique role ids, referentially intact `parents` edges): if
`_simultaneous_ancestry_rebuild(S)` commits and is immediately run again on its
own result, the second run also commits, changes no other table, and leaves the
`ancestors` table with exactly the same rows (as a multiset) as the first
run. -/
theorem rebuild_idempotent (db : DBState) (S : List Nat) (db1 : DBState)
    (ops1 : List SqlOp)
    (hnodup : (db.roles.map RoleRow.id).Nodup) (hFK : edgesFK db)
    (hok1 : simultaneous_ancestry_rebuild db S = .ok (db1, ops1)) :
    ∃ db2 ops2, simultaneous_ancestry_rebuild db1 S = .ok (db2, ops2) ∧
      db2.ancestors.Perm db1.ancestors ∧
      db2.roles = db1.roles ∧ db2.parents = db1.parents ∧
      db2.members = db1.members := by
  have hok1' := hok1
  rw [simultaneous_ancestry_rebuild] at hok1
  by_cases hlen : S.length = 0
  · rw [if_pos hlen] at hok1
    cases hok1
    refine ⟨db, [], ?_, List.Perm.refl _, rfl, rfl, rfl⟩
    rw [simultaneous_ancestry_rebuild, if_pos hlen]
  · rw [if_neg hlen] at hok1
    cases hrec1 : rebuildLoop (purgeByAncestor db S) S 0 with
    | error e =>
        rw [hrec1] at hok1
        cases hok1
    | ok res =>
        obtain ⟨T1, opsr⟩ := res
        rw [hrec1] at hok1
        injection hok1 with hpair1
        injection hpair1 with hdb1 hops1
        subst hdb1
        -- frames of the first run
        obtain ⟨hroles1, hparents1, hmembers1⟩ :=
          rebuildLoopFuel_frame (1001 - 0) (purgeByAncestor db S) S T1 opsr hrec1
        have hnodup1 : (T1.roles.map RoleRow.id).Nodup := by
          rw [hroles1]
          exact hnodup
        -- seed invariants of the first run's result
        have hsigP : sigmaState S (purgeByAncestor db S) := by
          intro row hrow hanc
          exact absurd hanc ((mem_purgeByAncestor db S row).mp hrow).2
        have hclP : sigmaClosed S (purgeByAncestor db S) S := by
          intro x p σ hσ _ _ hpair
          obtain ⟨prow, hprow, _, hpa⟩ := hpair
          exact absurd (hpa ▸ hσ) ((mem_purgeByAncestor db S prow).mp hprow).2
        have hgrP : sigmaGrounded S (purgeByAncestor db S) S := fun σ hσ _ => Or.inr hσ
        obtain ⟨hsig1, hcl1, hgr1⟩ :=
          rebuildLoopFuel_sigma S (1001 - 0) (purgeByAncestor db S) S T1 opsr hrec1
            hsigP hclP hgrP
        -- the deterministic replay of the first run
        obtain ⟨hstate, hshape⟩ :=
          rebuildLoopFuel_runState (1001 - 0) (purgeByAncestor db S) S T1 opsr hrec1
        have hPdb1roles : (purgeByAncestor db S).roles = T1.roles := hroles1.symm
        have hPdb1parents : (purgeByAncestor db S).parents = T1.parents :=
          hparents1.symm
        have hiterP : ∀ j, iterFrontier (purgeByAncestor db S) S j =
            iterFrontier T1 S j :=
          iterFrontier_congr _ _ hPdb1roles hPdb1parents S
        have hst1roles : ∀ j, (runState (purgeByAncestor db S) S j).roles =
            T1.roles := by
          intro j
          rw [(runState_frame (purgeByAncestor db S) S j).1]
          exact hPdb1roles
        have hst1parents : ∀ j, (runState (purgeByAncestor db S) S j).parents =
            T1.parents := by
          intro j
          rw [(runState_frame (purgeByAncestor db S) S j).2]
          exact hPdb1parents
        have hst1step : ∀ j, runState (purgeByAncestor db S) S (j + 1) =
            layerState (runState (purgeByAncestor db S) S j) (iterFrontier T1 S j) := by
          intro j
          show layerState _ (iterFrontier (purgeByAncestor db S) S j) = _
          rw [hiterP j]
        have hst1sig : ∀ j, sigmaState S (runState (purgeByAncestor db S) S j) :=
          runState_sigma S (purgeByAncestor db S) S hsigP
        have hT1fin : runState (purgeByAncestor db S) S (layerCnt opsr) = T1 :=
          hstate.symm
        have hstop1 : 0 < layerCnt opsr →
            runState (purgeByAncestor db S) S (layerCnt opsr) =
              runState (purgeByAncestor db S) S (layerCnt opsr - 1) ∨
            iterFrontier T1 S (layerCnt opsr) = [] := by
          intro hpos
          rcases hshape with ⟨hc0, _, _⟩ | ⟨_, hdisj⟩
          · omega
          · rcases hdisj with hzw | hfe
            · left
              have h1 : layerCnt opsr - 1 + 1 = layerCnt opsr := by omega
              rw [← h1]
              exact layer_zero_work_eq _ _ hzw
            · right
              rw [← hiterP]
              exact hfe
        -- consistency of the first run's result at all visited nodes
        have hcons0 := rebuild_consist db S T1 ops1 hok1' hFK
        have hcnt1 : layerCnt ops1 = layerCnt opsr := by
          rw [← hops1]
          simp [layerCnt, List.countP_cons]
        have hconsT1 : ∀ i, i < layerCnt opsr →
            ∀ d ∈ iterFrontier T1 S i, Consist T1 d := by
          intro i hi d hd
          refine hcons0 i (by omega) d ?_
          rw [iterFrontier_congr db T1 hroles1.symm hparents1.symm S i]
          exact hd
        -- P2 facts
        have hsigP2 : sigmaState S (purgeByAncestor T1 S) := by
          intro row hrow hanc
          exact absurd hanc ((mem_purgeByAncestor T1 S row).mp hrow).2
        have hclP2 : sigmaClosed S (purgeByAncestor T1 S) (iterFrontier T1 S 0) := by
          intro x p σ hσ _ _ hpair
          obtain ⟨prow, hprow, _, hpa⟩ := hpair
          exact absurd (hpa ▸ hσ) ((mem_purgeByAncestor T1 S prow).mp hprow).2
        have hgrP2 : sigmaGrounded S (purgeByAncestor T1 S) (iterFrontier T1 S 0) :=
          fun σ hσ _ => Or.inr hσ
        have hlock0 : ∀ x σ, σ ∈ S →
            (hasPair (purgeByAncestor T1 S) x σ ↔
              hasPair (runState (purgeByAncestor db S) S 0) x σ) := by
          intro x σ hσ
          constructor
          · rintro ⟨row, hrow, _, ha⟩
            exact absurd (ha ▸ hσ) ((mem_purgeByAncestor T1 S row).mp hrow).2
          · rintro ⟨row, hrow, _, ha⟩
            exact absurd (ha ▸ hσ) ((mem_purgeByAncestor db S row).mp hrow).2
        have hfuel2 : layerCnt opsr ≤ 1001 + 0 := by
          have := rebuildLoopFuel_layerCnt_le (1001 - 0) (purgeByAncestor db S) S
            T1 opsr hrec1
          omega
        have hiF0 : iterFrontier T1 S 0 ≠ [] → 0 < layerCnt opsr := by
          intro hne
          rcases hshape with ⟨_, hS0, _⟩ | ⟨hpos, _⟩
          · exact absurd hS0 hne
          · exact hpos
        obtain ⟨db2, ops2, hok2loop, ⟨R2, hsplit2, hR2facts⟩, hfin2⟩ :=
          run2_loop S T1 (layerCnt opsr) (fun j => runState (purgeByAncestor db S) S j)
            hnodup1 hsig1 hcl1 hgr1 hconsT1 hst1step hst1sig hst1roles hst1parents
            hT1fin hstop1 1001 0 (purgeByAncestor T1 S) hfuel2 (Nat.zero_le _) hiF0
            rfl rfl hsigP2 hclP2 hgrP2
            ⟨[], (List.append_nil _).symm, by intro ρ h; cases h⟩ hlock0
        -- the committed second run
        have hloop2 : rebuildLoop (purgeByAncestor T1 S) S 0 = .ok (db2, ops2) :=
          hok2loop
        have hok2 : simultaneous_ancestry_rebuild T1 S =
            .ok (db2, .purgeStmt S :: ops2) := by
          rw [simultaneous_ancestry_rebuild, if_neg hlen]
          simp only [hloop2]
        -- frames of the second run
        obtain ⟨hroles2, hparents2, hmembers2⟩ :=
          rebuildLoopFuel_frame 1001 (purgeByAncestor T1 S) (iterFrontier T1 S 0)
            db2 ops2 hok2loop
        -- seed-pair uniqueness of both results
        have huP1 : sigmaUnique S (purgeByAncestor db S) := by
          intro x σ hσ
          have h0 : (purgeByAncestor db S).ancestors.countP
              (fun ρ => ρ.descendent_id == x && ρ.ancestor_id == σ) = 0 := by
            rw [List.countP_eq_zero]
            intro ρ hρ hpred
            simp only [Bool.and_eq_true, beq_iff_eq] at hpred
            exact ((mem_purgeByAncestor db S ρ).mp hρ).2 (hpred.2 ▸ hσ)
          omega
        have hu1 : sigmaUnique S T1 :=
          rebuildLoopFuel_sigmaUnique S (1001 - 0) (purgeByAncestor db S) S T1 opsr
            hrec1 hnodup huP1
        have huP2 : sigmaUnique S (purgeByAncestor T1 S) := by
          intro x σ hσ
          have h0 : (purgeByAncestor T1 S).ancestors.countP
              (fun ρ => ρ.descendent_id == x && ρ.ancestor_id == σ) = 0 := by
            rw [List.countP_eq_zero]
            intro ρ hρ hpred
            simp only [Bool.and_eq_true, beq_iff_eq] at hpred
            exact ((mem_purgeByAncestor T1 S ρ).mp hρ).2 (hpred.2 ▸ hσ)
          omega
        have hu2 : sigmaUnique S db2 :=
          rebuildLoopFuel_sigmaUnique S 1001 (purgeByAncestor T1 S)
            (iterFrontier T1 S 0) db2 ops2 hok2loop hnodup1 huP2
        -- the restored rows are a permutation of the purged seed rows
        have hndR2 : R2.Nodup := by
          refine sigma_rows_nodup S db2 hu2 R2 ?_ (fun ρ h => (hR2facts ρ h).1)
          intro ρ
          rw [hsplit2, List.count_append]
          omega
        have hndσ : (T1.ancestors.filter
            (fun x => !(!(S.contains x.ancestor_id)))).Nodup := by
          refine sigma_rows_nodup S T1 hu1 _ ?_ ?_
          · intro ρ
            exact (List.filter_sublist _).count_le ρ
          · intro ρ hρ
            have := (List.mem_filter.mp hρ).2
            simpa [List.elem_iff] using this
        have hmemiff : ∀ ρ, ρ ∈ R2 ↔ ρ ∈ T1.ancestors.filter
            (fun x => !(!(S.contains x.ancestor_id))) := by
          intro ρ
          constructor
          · intro h
            obtain ⟨hσρ, hρT1⟩ := hR2facts ρ h
            refine List.mem_filter.mpr ⟨hρT1, ?_⟩
            simpa [List.elem_iff] using hσρ
          · intro h
            obtain ⟨hρT1, hpred⟩ := List.mem_filter.mp h
            have hσρ : ρ.ancestor_id ∈ S := by simpa [List.elem_iff] using hpred
            have hp1 : hasPair T1 ρ.descendent_id ρ.ancestor_id := ⟨ρ, hρT1, rfl, rfl⟩
            obtain ⟨row', hrow'2, hd', ha'⟩ := (hfin2 _ _ hσρ).mpr hp1
            rw [hsplit2] at hrow'2
            rcases List.mem_append.mp hrow'2 with h' | h'
            · exact absurd (ha' ▸ hσρ) ((mem_purgeByAncestor T1 S row').mp h').2
            · have hrow'T1 : row' ∈ T1.ancestors := (hR2facts row' h').2
              have : ρ = row' := by
                refine eq_of_countP_le_one T1.ancestors
                  (fun a => a.descendent_id == ρ.descendent_id &&
                    a.ancestor_id == ρ.ancestor_id)
                  (hu1 ρ.descendent_id ρ.ancestor_id hσρ) ρ row' hρT1 hrow'T1
                  (by simp) (by simp [hd', ha'])
              rw [this]
              exact h'
        have hpermR2 : R2.Perm (T1.ancestors.filter
            (fun x => !(!(S.contains x.ancestor_id)))) :=
          (List.perm_ext_iff_of_nodup hndR2 hndσ).mpr hmemiff
        have hperm : db2.ancestors.Perm T1.ancestors := by
          rw [hsplit2]
          refine List.Perm.trans (List.Perm.append_left _ hpermR2) ?_
          exact List.filter_append_perm (fun a => !(S.contains a.ancestor_id))
            T1.ancestors
        exact ⟨db2, .purgeStmt S :: ops2, hok2, hperm, hroles2, hparents2, hmembers2⟩

end AwxRbac

namespace AwxRbac

/-- A two-role chain (`1` is a child of `2`) with an empty ancestors table. -/
def idemDb : DBState :=
  ⟨[⟨1, "admin_role", some 10, some 20, none⟩,
    ⟨2, "member_role", none, none, some "sys"⟩],
   [(1, 2)], [], []⟩

/-- The committed result of rebuilding `idemDb` with seed `[2]`. -/
def idemDb1 : DBState :=
  ⟨[⟨1, "admin_role", some 10, some 20, none⟩,
    ⟨2, "member_role", none, none, some "sys"⟩],
   [(1, 2)],
   [⟨2, 2, "member_role", 0, 0⟩, ⟨1, 2, "admin_role", 10, 20⟩,
    ⟨1, 1, "admin_role", 10, 20⟩], []⟩

/-- The statement trace of that rebuild. -/
def idemOps1 : List SqlOp :=
  [.purgeStmt [2], .layerDeleteStmt [2] 0, .layerInsertStmt [2] 1,
   .childrenStmt [2] [1], .layerDeleteStmt [1] 0, .layerInsertStmt [1] 2,
   .childrenStmt [1] []]

/-- Witness for `rebuild_idempotent`: a concrete committed rebuild on a
two-role chain; all hypotheses hold by computation. -/
theorem rebuild_idempotent_witness :
    ((idemDb.roles.map RoleRow.id).Nodup ∧ edgesFK idemDb ∧
      simultaneous_ancestry_rebuild idemDb [2] = .ok (idemDb1, idemOps1)) ∧
    (∃ db2 ops2, simultaneous_ancestry_rebuild idemDb1 [2] = .ok (db2, ops2) ∧
      db2.ancestors.Perm idemDb1.ancestors ∧
      db2.roles = idemDb1.roles ∧ db2.parents = idemDb1.parents ∧
      db2.members = idemDb1.members) :=
  ⟨⟨by decide, by unfold edgesFK; decide, by rfl⟩,
    rebuild_idempotent idemDb [2] idemDb1 idemOps1 (by decide)
      (by unfold edgesFK; decide) (by rfl)⟩

end AwxRbac
